import Mathlib

/-!
# fileExplorationSystem: a verification development

A shallow embedding of `main.go` (menu loop, List, Search, Copy, Move, Delete)
together with a model of the Go library and host calls the program makes.

* Go strings are byte sequences: `GoString` is `List Nat`, one number per byte.
* The Unicode case and white-space tables of package `unicode` are data that is
  not part of the program; they enter as the parameter `UnicodeTables`.
* Paths are the strings the program passes on.  The host resolves them as Linux
  does: from the root or the working directory, element by element, with `.`, `..`,
  repeated and trailing separators and symbolic links.
* The host file system is a tree of directories whose leaves are symbolic links and
  names of files; a file is a number with its bytes kept apart, so that several
  names (hard links) may share one file.  A call into the file system fails only
  for a reason visible in this state (an entry is missing, has the wrong kind, a
  directory is not empty, a path is refused); permissions, quotas and device
  errors are not part of it.  What the host answers while a tree is walked is kept
  as a separate type (`Answer`) in which every answer may be an error.
-/

namespace FileExplorer

/-- A Go string: its bytes. -/
abbrev GoString := List Nat

/-! ## Package utf8 -/

namespace Utf8

/-- The constant `utf8.RuneError`, U+FFFD. -/
def RuneError : Nat := 0xFFFD

/-- The constant `utf8.RuneSelf`: bytes below it are single-byte runes. -/
def RuneSelf : Nat := 0x80

/-- An entry of the table `first`: information about the first byte of an encoding. -/
inductive First where
  | ascii
  | invalid
  | lead (size lo hi : Nat)
  deriving DecidableEq, Repr

/-- The table `first` joined with `acceptRanges`: for a leading byte the size of
the encoding and the range accepted for the second byte. -/
def first (b : Nat) : First :=
  if b < 0x80 then .ascii
  else if b < 0xC2 then .invalid
  else if b < 0xE0 then .lead 2 0x80 0xBF
  else if b = 0xE0 then .lead 3 0xA0 0xBF
  else if b < 0xED then .lead 3 0x80 0xBF
  else if b = 0xED then .lead 3 0x80 0x9F
  else if b < 0xF0 then .lead 3 0x80 0xBF
  else if b = 0xF0 then .lead 4 0x90 0xBF
  else if b < 0xF4 then .lead 4 0x80 0xBF
  else if b = 0xF4 then .lead 4 0x80 0x8F
  else .invalid

/-- A continuation byte lies in `locb..hicb`. -/
def isCont (b : Nat) : Bool := 0x80 ≤ b && b ≤ 0xBF

/-- The function `utf8.DecodeRuneInString`: the first rune of `s` and its width in
bytes.  An empty string gives `(RuneError, 0)`, an invalid encoding `(RuneError, 1)`. -/
def DecodeRuneInString (s : GoString) : Nat × Nat :=
  match s with
  | [] => (RuneError, 0)
  | s0 :: t =>
    match first s0 with
    | .ascii => (s0, 1)
    | .invalid => (RuneError, 1)
    | .lead sz lo hi =>
      if t.length + 1 < sz then (RuneError, 1)
      else
        match t with
        | [] => (RuneError, 1)
        | s1 :: t1 =>
          if s1 < lo ∨ hi < s1 then (RuneError, 1)
          else if sz ≤ 2 then ((s0 % 32) * 64 + s1 % 64, 2)
          else
            match t1 with
            | [] => (RuneError, 1)
            | s2 :: t2 =>
              if isCont s2 = false then (RuneError, 1)
              else if sz ≤ 3 then ((s0 % 16) * 4096 + (s1 % 64) * 64 + s2 % 64, 3)
              else
                match t2 with
                | [] => (RuneError, 1)
                | s3 :: _ =>
                  if isCont s3 = false then (RuneError, 1)
                  else ((s0 % 8) * 262144 + (s1 % 64) * 4096 + (s2 % 64) * 64 + s3 % 64, 4)

/-- The function `utf8.AppendRune` on an empty buffer: the encoding of rune `r`.
Surrogates and values above U+10FFFF are written as `RuneError`. -/
def EncodeRune (r : Nat) : GoString :=
  if r ≤ 0x7F then [r]
  else if r ≤ 0x7FF then [0xC0 + r / 64, 0x80 + r % 64]
  else if 0x10FFFF < r ∨ (0xD800 ≤ r ∧ r ≤ 0xDFFF) then [0xEF, 0xBF, 0xBD]
  else if r ≤ 0xFFFF then [0xE0 + r / 4096, 0x80 + (r / 64) % 64, 0x80 + r % 64]
  else [0xF0 + r / 262144, 0x80 + (r / 4096) % 64, 0x80 + (r / 64) % 64, 0x80 + r % 64]

/-- The function `utf8.DecodeLastRuneInString`: the last rune of `s` and its width. -/
def DecodeLastRuneInString (s : GoString) : Nat × Nat :=
  match s.reverse with
  | [] => (RuneError, 0)
  | last :: before =>
    if last < RuneSelf then (last, 1)
    else
      -- walk back over at most three more bytes to a byte that can start a rune
      let back := (before.take 3).takeWhile (fun b => isCont b)
      let k :=
        if back.length < (before.take 3).length then back.length + 1
        else if s.length ≤ 4 then back.length else 4
      let start := s.length - 1 - k
      let (r, size) := DecodeRuneInString (s.drop start)
      if start + size ≠ s.length then (RuneError, 1) else (r, size)

end Utf8

/-- The tables of package `unicode` the program depends on, for runes above the
ASCII range: the lower-case mapping and the white-space property. -/
structure UnicodeTables where
  /-- The lower-case mapping `unicode.To(unicode.LowerCase, r)` for `r > 0x7F`. -/
  toLower : Nat → Nat
  /-- The property `unicode.IsSpace` for `r > 0x7F`. -/
  isSpace : Nat → Bool

/-- A table that maps the Latin-1 capital letters to their small forms and knows
the white space of Latin-1 (U+0085 and U+00A0); it is used to run examples. -/
def latin1Tables : UnicodeTables where
  toLower := fun r => if 0xC0 ≤ r ∧ r ≤ 0xDE ∧ r ≠ 0xD7 then r + 32 else r
  isSpace := fun r => r = 0x85 || r = 0xA0

/-! ## Package unicode -/

namespace Unicode

/-- The function `unicode.ToLower`. -/
def ToLower (U : UnicodeTables) (r : Nat) : Nat :=
  if r ≤ 0x7F then
    if 65 ≤ r ∧ r ≤ 90 then r + 32 else r
  else U.toLower r

/-- The function `unicode.IsSpace`: for Latin-1 the fixed list, otherwise the table. -/
def IsSpace (U : UnicodeTables) (r : Nat) : Bool :=
  if r ≤ 0xFF then
    r = 9 || r = 10 || r = 11 || r = 12 || r = 13 || r = 32 || r = 0x85 || r = 0xA0
  else U.isSpace r

end Unicode

/-! ## Package strings -/

namespace Strings

/-- The loop of `strings.Map`, rune by rune; `fuel` bounds the number of runes. -/
def mapLoop (mapping : Nat → Nat) : Nat → GoString → GoString
  | 0, _ => []
  | fuel + 1, s =>
    match s with
    | [] => []
    | _ :: _ =>
      let d := Utf8.DecodeRuneInString s
      Utf8.EncodeRune (mapping d.1) ++ mapLoop mapping fuel (s.drop d.2)

/-- The function `strings.Map` for a mapping that never returns a negative rune:
every rune of `s` (an invalid byte counts as `RuneError`) is replaced by the
encoding of its image. -/
def Map (mapping : Nat → Nat) (s : GoString) : GoString :=
  mapLoop mapping s.length s

/-- The function `strings.ToLower`: ASCII-only strings are mapped byte by byte,
all others through `Map(unicode.ToLower, s)`. -/
def ToLower (U : UnicodeTables) (s : GoString) : GoString :=
  if s.all (fun c => decide (c < Utf8.RuneSelf)) then
    s.map (fun c => if 65 ≤ c ∧ c ≤ 90 then c + 32 else c)
  else Map (Unicode.ToLower U) s

/-- The function `strings.Contains`: `substr` occurs in `s` as a run of bytes. -/
def Contains (s substr : GoString) : Bool :=
  decide (substr <:+: s)

/-- The loop of `strings.TrimLeftFunc(s, unicode.IsSpace)`. -/
def trimLeftLoop (U : UnicodeTables) : Nat → GoString → GoString
  | 0, s => s
  | fuel + 1, s =>
    match s with
    | [] => []
    | _ :: _ =>
      let d := Utf8.DecodeRuneInString s
      if Unicode.IsSpace U d.1 then trimLeftLoop U fuel (s.drop d.2) else s

/-- The loop of `strings.TrimRightFunc(s, unicode.IsSpace)`. -/
def trimRightLoop (U : UnicodeTables) : Nat → GoString → GoString
  | 0, s => s
  | fuel + 1, s =>
    match s with
    | [] => []
    | _ :: _ =>
      let d := Utf8.DecodeLastRuneInString s
      if Unicode.IsSpace U d.1 then trimRightLoop U fuel (s.take (s.length - d.2)) else s

/-- The function `strings.TrimSpace`: leading and trailing white space removed. -/
def TrimSpace (U : UnicodeTables) (s : GoString) : GoString :=
  let l := trimLeftLoop U s.length s
  trimRightLoop U l.length l

end Strings

/-! ## Package filepath -/

namespace Filepath

/-- The path separator of the host, `/`. -/
def Separator : Nat := 47

/-- The loop of `filepath.Ext`, from the last byte backwards: `rev` holds the bytes
not yet looked at, last one first, `acc` the bytes already passed. -/
def extLoop : GoString → GoString → GoString
  | [], _ => []
  | c :: rev, acc =>
    if c = Separator then []
    else if c = 46 then c :: acc
    else extLoop rev (c :: acc)

/-- The function `filepath.Ext`: the suffix of the last path element that starts at
its last dot, empty when there is no dot. -/
def Ext (path : GoString) : GoString :=
  extLoop path.reverse []

/-- The elements of a path: the runs of bytes between separators, empty runs kept. -/
def elements : GoString → List GoString
  | [] => [[]]
  | c :: rest =>
    if c = Separator then [] :: elements rest
    else
      match elements rest with
      | [] => [[c]]
      | e :: es => (c :: e) :: es

/-- The loop of `filepath.Clean` over the elements of a path; `out` holds the elements
written so far, the last one first. -/
def cleanLoop (rooted : Bool) : List GoString → List GoString → List GoString
  | out, [] => out
  | out, c :: rest =>
    if c = [] ∨ c = [46] then cleanLoop rooted out rest
    else if c = [46, 46] then
      match out with
      | top :: below =>
        if top = [46, 46] then cleanLoop rooted ([46, 46] :: out) rest
        else cleanLoop rooted below rest
      | [] => if rooted then cleanLoop rooted [] rest else cleanLoop rooted [[46, 46]] rest
    else cleanLoop rooted (c :: out) rest

/-- The function `filepath.Clean`: the shortest path that is the same by the rules of
names alone. -/
def Clean (path : GoString) : GoString :=
  if path = [] then [46]
  else
    let rooted := decide (path.head? = some Separator)
    let out := (cleanLoop rooted [] (elements path)).reverse
    let s := [Separator].intercalate out
    if rooted then Separator :: s
    else if s = [] then [46] else s

/-- The function `filepath.Join` for two elements. -/
def Join (dir name : GoString) : GoString :=
  if dir = [] then (if name = [] then [] else Clean name)
  else Clean (dir ++ Separator :: name)

end Filepath

/-- A string literal as a Go string (its UTF-8 bytes). -/
def str (s : String) : GoString :=
  s.toList.flatMap (fun c => Utf8.EncodeRune c.toNat)

/-! ## The search match of `main.go` -/

/-- The function `containsIgnoreCase` of `main.go`. -/
def containsIgnoreCase (U : UnicodeTables) (s substr : GoString) : Bool :=
  Strings.Contains (Strings.ToLower U s) (Strings.ToLower U substr)

/-- The function `containsNameOrExtension` of `main.go`, on the name that
`info.Name()` returns. -/
def containsNameOrExtension (U : UnicodeTables) (name query : GoString) : Bool :=
  containsIgnoreCase U name query || containsIgnoreCase U (Filepath.Ext name) query

end FileExplorer

namespace FileExplorer

/-! ## Errors -/

/-- The error numbers of the host that the file system model reports. -/
inductive Errno where
  | ENOENT
  | ENOTDIR
  | EISDIR
  | ENOTEMPTY
  | EEXIST
  | EINVAL
  | EBUSY
  | ELOOP
  deriving DecidableEq, Repr

/-- The non-nil values of Go's `error` that occur in the program. -/
inductive Error where
  /-- A `*PathError` or `*LinkError` of package `os`, with the host's error number. -/
  | host (e : Errno)
  /-- The sentinel `filepath.SkipDir`. -/
  | SkipDir
  /-- The sentinel `filepath.SkipAll`. -/
  | SkipAll
  /-- A `*NumError` of package `strconv` wrapping `strconv.ErrSyntax`. -/
  | ErrSyntax
  /-- A `*NumError` of package `strconv` wrapping `strconv.ErrRange`. -/
  | ErrRange
  deriving DecidableEq, Repr

/-! ## Package strconv -/

namespace Strconv

/-- The function `strconv.ParseBool`. -/
def ParseBool (s : GoString) : Except Error Bool :=
  if s = str "1" ∨ s = str "t" ∨ s = str "T" ∨ s = str "true" ∨ s = str "TRUE"
      ∨ s = str "True" then .ok true
  else if s = str "0" ∨ s = str "f" ∨ s = str "F" ∨ s = str "false" ∨ s = str "FALSE"
      ∨ s = str "False" then .ok false
  else .error .ErrSyntax

/-- The digit loop of `strconv.Atoi`: the value of a run of decimal digits read after
the value `n`, or nothing if a byte is not a digit. -/
def digitsLoop : Nat → GoString → Option Nat
  | n, [] => some n
  | n, ch :: rest => if 48 ≤ ch ∧ ch ≤ 57 then digitsLoop (n * 10 + (ch - 48)) rest else none

/-- The function `strconv.Atoi` for a 64-bit `int`: an optional sign, then one or
more decimal digits; a value outside the range of `int` is an error. -/
def Atoi (s : GoString) : Except Error Int :=
  let neg : Bool := match s with
    | 45 :: _ => true
    | _ => false
  let body : GoString := match s with
    | 45 :: t => t
    | 43 :: t => t
    | _ => s
  if body = [] then .error .ErrSyntax
  else
    match digitsLoop 0 body with
    | none => .error .ErrSyntax
    | some n =>
      let v : Int := if neg then -(n : Int) else (n : Int)
      if v < -(2 : Int) ^ 63 ∨ (2 : Int) ^ 63 - 1 < v then .error .ErrRange else .ok v

end Strconv

/-! ## The host file system: its state -/

/-- An entry of a directory: a name of a file (the file is the number `ino`, several
names may carry the same number), a symbolic link with its target, or a directory
with its entries. -/
inductive Node where
  | file (ino : Nat)
  | symlink (target : GoString)
  | dir (entries : List (GoString × Node))

/-- What an entry is, without the entries of a directory. -/
inductive Kind where
  | file (ino : Nat)
  | symlink (target : GoString)
  | dir
  deriving DecidableEq, Repr

/-- The kind of an entry. -/
def Node.kind : Node → Kind
  | .file ino => .file ino
  | .symlink target => .symlink target
  | .dir _ => .dir

/-- A place in the tree: the names that lead from the root directory to an entry, no
`.`, `..` or symbolic link among them.  The empty list is the root directory. -/
abbrev Loc := List GoString

/-- The state of the file system: the entries of the root directory, the bytes of
every file, and the working directory of the process. -/
structure FS where
  root : List (GoString × Node)
  data : List (Nat × GoString)
  cwd : Loc

namespace Os

/-- The entry called `name` in a directory. -/
def lookupEntry (name : GoString) : List (GoString × Node) → Option Node
  | [] => none
  | (k, n) :: es => if k = name then some n else lookupEntry name es

/-- A directory with the entry `name` set to `n`: replaced in place, or added. -/
def setEntry (name : GoString) (n : Node) : List (GoString × Node) → List (GoString × Node)
  | [] => [(name, n)]
  | (k, m) :: es =>
    if k = name then (name, n) :: es
    else (k, m) :: setEntry name n es

/-- A directory without the entry `name`. -/
def delEntry (name : GoString) : List (GoString × Node) → List (GoString × Node)
  | [] => []
  | (k, m) :: es => if k = name then delEntry name es else (k, m) :: delEntry name es

/-- A directory after its entry `name` became `r` (nothing: the entry is gone). -/
def putEntry (name : GoString) (r : Option Node) (es : List (GoString × Node)) :
    List (GoString × Node) :=
  match r with
  | none => delEntry name es
  | some n => setEntry name n es

/-- The entry at the place `c :: rest` below a directory with entries `es`. -/
def find : List (GoString × Node) → GoString → Loc → Option Node
  | es, c, [] => lookupEntry c es
  | es, c, c2 :: rest =>
    match lookupEntry c es with
    | some (.dir sub) => find sub c2 rest
    | _ => none

/-- The entry at a place of the tree; the root directory is at the empty place. -/
def nodeAt (root : List (GoString × Node)) : Loc → Option Node
  | [] => some (.dir root)
  | c :: rest => find root c rest

/-- The kind of the entry at a place. -/
def kindAt (root : List (GoString × Node)) (loc : Loc) : Option Kind :=
  (nodeAt root loc).map Node.kind

/-- The tree after the entry at the place `c :: rest` became `r`; nothing changes when
the directories on the way are not there. -/
def putIn (r : Option Node) : List (GoString × Node) → GoString → Loc → List (GoString × Node)
  | es, c, [] => putEntry c r es
  | es, c, c2 :: rest =>
    match lookupEntry c es with
    | some (.dir sub) => setEntry c (.dir (putIn r sub c2 rest)) es
    | _ => es

/-- The tree after the entry at a place became `r`; the root directory stays. -/
def put (root : List (GoString × Node)) (loc : Loc) (r : Option Node) :
    List (GoString × Node) :=
  match loc with
  | [] => root
  | c :: rest => putIn r root c rest

/-- The bytes of the file `ino`. -/
def content (data : List (Nat × GoString)) (ino : Nat) : GoString :=
  match data with
  | [] => []
  | (k, bytes) :: rest => if k = ino then bytes else content rest ino

/-- The bytes of all files after the file `ino` got the bytes `bytes`. -/
def setContent (ino : Nat) (bytes : GoString) :
    List (Nat × GoString) → List (Nat × GoString)
  | [] => [(ino, bytes)]
  | (k, old) :: rest =>
    if k = ino then (ino, bytes) :: rest else (k, old) :: setContent ino bytes rest

mutual
/-- The numbers of the files named in an entry and below it. -/
def inos : Node → List Nat
  | .file ino => [ino]
  | .symlink _ => []
  | .dir es => inosList es
/-- The numbers of the files named in the entries of a directory and below them. -/
def inosList : List (GoString × Node) → List Nat
  | [] => []
  | (_, n) :: rest => inos n ++ inosList rest
end

/-- A number no file has: above all numbers in the tree and among the bytes. -/
def fresh (fs : FS) : Nat :=
  ((inosList fs.root ++ fs.data.map (fun p => p.1)).foldr max 0) + 1

/-! ## The host file system: path resolution -/

/-- The limit of the host on symbolic links followed in one resolution
(`MAXSYMLINKS`). -/
def maxSymlinks : Nat := 40

/-- The walk over elements that all must be directories, from the directory at `cur`:
`.` and empty elements stay, `..` goes up (the root is its own parent), a name
enters the directory of that name, a symbolic link is followed by `follow` from the
directory that holds it or from the root.  `budget` counts the links that may still
be followed; the result is the place reached and the budget left. -/
def walkElems (follow : Nat → Loc → List GoString → Except Errno (Loc × Nat))
    (root : List (GoString × Node)) :
    Nat → Loc → List GoString → Except Errno (Loc × Nat)
  | budget, cur, [] => .ok (cur, budget)
  | budget, cur, c :: rest =>
    if c = [] ∨ c = [46] then walkElems follow root budget cur rest
    else if c = [46, 46] then walkElems follow root budget cur.dropLast rest
    else
      match kindAt root (cur ++ [c]) with
      | none => .error .ENOENT
      | some (.file _) => .error .ENOTDIR
      | some .dir => walkElems follow root budget (cur ++ [c]) rest
      | some (.symlink target) =>
        if budget = 0 then .error .ELOOP
        else if target = [] then .error .ENOENT
        else
          match follow (budget - 1)
              (if target.head? = some Filepath.Separator then [] else cur)
              (Filepath.elements target) with
          | .error e => .error e
          | .ok (cur2, budget2) => walkElems follow root budget2 cur2 rest

/-- The walk `walkElems` with links in links followed to the depth `depth`. -/
def walkDirs (root : List (GoString × Node)) :
    Nat → Nat → Loc → List GoString → Except Errno (Loc × Nat)
  | 0 => walkElems (fun _ _ _ => .error .ELOOP) root
  | depth + 1 => walkElems (walkDirs root depth) root

/-- The last element of a path, as the host classes it. -/
inductive Last where
  | norm (name : GoString)
  | dot
  | dotdot
  | root
  deriving DecidableEq, Repr

/-- A path split as the host splits it: the elements before the last one, the last
one, whether separators trail it, whether the path starts at the root. -/
structure Split where
  rooted : Bool
  before : List GoString
  last : Last
  slash : Bool
  deriving DecidableEq, Repr

/-- The elements of a path without the empty ones at its end. -/
def dropTrailingEmpty (elems : List GoString) : List GoString :=
  (elems.reverse.dropWhile (fun e => decide (e = []))).reverse

/-- The split of a path that is not empty. -/
def split (path : GoString) : Split :=
  let elems := dropTrailingEmpty (Filepath.elements path)
  { rooted := decide (path.head? = some Filepath.Separator)
    before := elems.dropLast
    last :=
      match elems.getLast? with
      | none => .root
      | some e => if e = [46] then .dot else if e = [46, 46] then .dotdot else .norm e
    slash := decide (path.getLast? = some Filepath.Separator) }

/-- The directory that holds the last element of a path, a place reached with `depth`
and `budget` for the links on the way. -/
def parentWalk (root : List (GoString × Node)) (depth budget : Nat) (cur : Loc) (s : Split) :
    Except Errno (Loc × Nat) :=
  walkDirs root depth budget (if s.rooted then [] else cur) s.before

/-- What a resolution finds: the place of an entry that is there, or the directory and
the name under which nothing is there (`slash`: separators trailed the name). -/
inductive Found where
  | here (loc : Loc)
  | missing (dir : Loc) (name : GoString) (slash : Bool)
  deriving DecidableEq, Repr

/-- The resolution of the last element in the directory at `dir`.  A symbolic link is
followed when `followLast` says so or separators trail it; after trailing separators
only a directory will do. -/
def lastWalk (root : List (GoString × Node)) :
    Nat → Nat → Loc → Last → Bool → Bool → Except Errno Found
  | _, _, dir, .dot, _, _ => .ok (.here dir)
  | _, _, dir, .dotdot, _, _ => .ok (.here dir.dropLast)
  | _, _, _, .root, _, _ => .ok (.here [])
  | depth, budget, dir, .norm name, slash, followLast =>
    match kindAt root (dir ++ [name]) with
    | none =>
      if kindAt root dir = some .dir then .ok (.missing dir name slash) else .error .ENOENT
    | some .dir => .ok (.here (dir ++ [name]))
    | some (.file _) => if slash then .error .ENOTDIR else .ok (.here (dir ++ [name]))
    | some (.symlink target) =>
      if followLast = false ∧ slash = false then .ok (.here (dir ++ [name]))
      else if budget = 0 then .error .ELOOP
      else if target = [] then .error .ENOENT
      else
        match depth with
        | 0 => .error .ELOOP
        | depth2 + 1 =>
          match parentWalk root depth2 (budget - 1) dir (split target) with
          | .error e => .error e
          | .ok (dir2, budget2) =>
            lastWalk root depth2 budget2 dir2 (split target).last
              ((split target).slash || slash) true

/-- The resolution of a whole path, as the system calls of the host start it. -/
def resolve (fs : FS) (path : GoString) (followLast : Bool) : Except Errno Found :=
  if path = [] then .error .ENOENT
  else
    match parentWalk fs.root maxSymlinks maxSymlinks fs.cwd (split path) with
    | .error e => .error e
    | .ok (dir, budget) =>
      lastWalk fs.root maxSymlinks budget dir (split path).last (split path).slash followLast

/-- The directory and the last element of a path, for the calls that work on the
entry itself (`unlink`, `rmdir`, `rename`). -/
def parentOf (fs : FS) (path : GoString) : Except Errno (Loc × Last × Bool) :=
  if path = [] then .error .ENOENT
  else
    match parentWalk fs.root maxSymlinks maxSymlinks fs.cwd (split path) with
    | .error e => .error e
    | .ok (dir, _) => .ok (dir, (split path).last, (split path).slash)

end Os

end FileExplorer

namespace FileExplorer

namespace Os

/-! ## The host file system: the calls of package os -/

/-- The entry at a place a resolution ended at.  A place that is not in the tree is
a directory that was removed while it was the working directory or above it: to the
host it is a directory still, and empty. -/
def entryAt (root : List (GoString × Node)) (loc : Loc) : Node :=
  match nodeAt root loc with
  | none => .dir []
  | some n => n

/-- The function `os.Lstat`: the place and the entry a path names; a last symbolic
link is not followed (unless separators trail it). -/
def Lstat (fs : FS) (path : GoString) : Except Errno (Loc × Node) :=
  match resolve fs path false with
  | .error e => .error e
  | .ok (.missing _ _ _) => .error .ENOENT
  | .ok (.here loc) => .ok (loc, entryAt fs.root loc)

/-- The function `os.Stat`: as `os.Lstat`, with a last symbolic link followed. -/
def Stat (fs : FS) (path : GoString) : Except Errno (Loc × Node) :=
  match resolve fs path true with
  | .error e => .error e
  | .ok (.missing _ _ _) => .error .ENOENT
  | .ok (.here loc) => .ok (loc, entryAt fs.root loc)

/-- What `os.SameFile` compares: the number of a file, or the place of a directory or
symbolic link. -/
inductive FileId where
  | file (ino : Nat)
  | other (loc : Loc)
  deriving DecidableEq, Repr

/-- The identity of the entry at a place. -/
def fileId (loc : Loc) (n : Node) : FileId :=
  match n with
  | .file ino => .file ino
  | _ => .other loc

/-- The identity of what a path names with links followed, as `os.SameFile` sees the
result of `os.Stat`; nothing when the path does not resolve. -/
def statId (fs : FS) (path : GoString) : Option FileId :=
  match Stat fs path with
  | .error _ => none
  | .ok (loc, n) => some (fileId loc n)

/-- The identity of the entry a path names, as `os.SameFile` sees the result of
`os.Lstat`; nothing when the path does not resolve. -/
def lstatId (fs : FS) (path : GoString) : Option FileId :=
  match Lstat fs path with
  | .error _ => none
  | .ok (loc, n) => some (fileId loc n)

/-- The bytes a reader finds behind a path (`os.ReadFile`). -/
def ReadFile (fs : FS) (path : GoString) : Except Errno GoString :=
  match Stat fs path with
  | .error e => .error e
  | .ok (_, .file ino) => .ok (content fs.data ino)
  | .ok (_, _) => .error .EISDIR

/-- An open file: the file it was opened on, or a directory. -/
inductive File where
  | file (ino : Nat)
  | dir (loc : Loc)
  deriving DecidableEq, Repr

/-- The function `os.Open`: the path must resolve, links followed; files and
directories open alike. -/
def Open (fs : FS) (name : GoString) : Except Error File :=
  match Stat fs name with
  | .error e => .error (.host e)
  | .ok (_, .file ino) => .ok (.file ino)
  | .ok (loc, _) => .ok (.dir loc)

/-- The function `os.Create` (`O_RDWR|O_CREATE|O_TRUNC`): an existing file is cut to
length zero, a missing one is created empty under the name the resolution ended at
(the target of a dangling link too); a directory, a path that ends in `.`, `..` or a
separator are refused. -/
def Create (fs : FS) (name : GoString) : Except Error (File × FS) :=
  match parentOf fs name with
  | .error e => .error (.host e)
  | .ok (_, _, true) => .error (.host .EISDIR)
  | .ok (_, _, false) =>
    match resolve fs name true with
    | .error e => .error (.host e)
    | .ok (.here loc) =>
      match kindAt fs.root loc with
      | some (.file ino) => .ok (.file ino, { fs with data := setContent ino [] fs.data })
      | _ => .error (.host .EISDIR)
    | .ok (.missing dir n slash) =>
      if slash then .error (.host .EISDIR)
      else
        .ok (.file (fresh fs),
          { fs with
            root := put fs.root (dir ++ [n]) (some (.file (fresh fs)))
            data := setContent (fresh fs) [] fs.data })

/-- The system call `unlink`. -/
def unlink (fs : FS) (path : GoString) : Except Errno FS :=
  match parentOf fs path with
  | .error e => .error e
  | .ok (dir, .norm n, slash) =>
    match kindAt fs.root (dir ++ [n]) with
    | none => .error .ENOENT
    | some .dir => .error .EISDIR
    | some _ =>
      if slash then .error .ENOTDIR
      else .ok { fs with root := put fs.root (dir ++ [n]) none }
  | .ok (_, _, _) => .error .EISDIR

/-- The system call `rmdir`. -/
def rmdir (fs : FS) (path : GoString) : Except Errno FS :=
  match parentOf fs path with
  | .error e => .error e
  | .ok (_, .dot, _) => .error .EINVAL
  | .ok (_, .dotdot, _) => .error .ENOTEMPTY
  | .ok (_, .root, _) => .error .EBUSY
  | .ok (dir, .norm n, _) =>
    match nodeAt fs.root (dir ++ [n]) with
    | none => .error .ENOENT
    | some (.dir []) => .ok { fs with root := put fs.root (dir ++ [n]) none }
    | some (.dir (_ :: _)) => .error .ENOTEMPTY
    | some _ => .error .ENOTDIR

/-- The function `os.Remove`: `unlink`, and when that fails `rmdir`; of two errors the
one of `rmdir` is returned unless it is `ENOTDIR`. -/
def Remove (fs : FS) (name : GoString) : Option Error × FS :=
  match unlink fs name with
  | .ok fs2 => (none, fs2)
  | .error e =>
    match rmdir fs name with
    | .ok fs2 => (none, fs2)
    | .error e1 => (some (.host (if e1 ≠ .ENOTDIR then e1 else e)), fs)

/-- The function `endsWithDot` of package `os`. -/
def endsWithDot (path : GoString) : Bool :=
  decide (path = [46]) ||
    (decide (2 ≤ path.length) && decide (path.getLast? = some 46) &&
      decide (path.dropLast.getLast? = some Filepath.Separator))

/-- The tree with the directory at a place emptied. -/
def clearDir (root : List (GoString × Node)) (loc : Loc) : List (GoString × Node) :=
  match loc with
  | [] => []
  | _ :: _ => if kindAt root loc = some .dir then put root loc (some (.dir [])) else root

/-- The part of `os.RemoveAll` after `os.Remove` failed (`removeAllFrom` on the
directory of the last element): a name is removed from its directory with all below
it, and nothing to remove is success.  A last element `.` or `..` (before trailing
separators) or the root has its directory emptied, and the removal of the directory
itself fails. -/
def removeAllFrom (fs : FS) (path : GoString) : Option Error × FS :=
  match parentOf fs path with
  | .error e => if e = .ENOENT then (none, fs) else (some (.host e), fs)
  | .ok (dir, .norm n, _) =>
    match kindAt fs.root (dir ++ [n]) with
    | none => (none, fs)
    | some _ => (none, { fs with root := put fs.root (dir ++ [n]) none })
  | .ok (dir, .dot, _) =>
    (some (.host .EINVAL), { fs with root := clearDir fs.root dir })
  | .ok (dir, .dotdot, _) =>
    (some (.host .ENOTEMPTY), { fs with root := clearDir fs.root dir.dropLast })
  | .ok (_, .root, _) => (some (.host .EBUSY), { fs with root := [] })

/-- The function `os.RemoveAll`.  The empty path is success without effect, a path
that ends in `.` is refused; then `os.Remove` is tried, and a path that does not
exist is success; otherwise `removeAllFrom` does the work. -/
def RemoveAll (fs : FS) (path : GoString) : Option Error × FS :=
  if path = [] then (none, fs)
  else if endsWithDot path then (some (.host .EINVAL), fs)
  else
    match Remove fs path with
    | (none, fs2) => (none, fs2)
    | (some (.host .ENOENT), _) => (none, fs)
    | (some _, _) => removeAllFrom fs path

/-- The working directory after the entry at `old` moved to `new`. -/
def movedCwd (old new cwd : Loc) : Loc :=
  if old <+: cwd then new ++ cwd.drop old.length else cwd

/-- The system call `rename`.  Both last elements must be names; the entry at the old
name must exist; two names of one file (the same entry, or two hard links) are
success without effect; otherwise the entry moves, replacing a file, a symbolic link
or an empty directory of its own sort. -/
def renameCall (fs : FS) (oldpath newpath : GoString) : Except Errno FS :=
  match parentOf fs oldpath with
  | .error e => .error e
  | .ok (d1, l1, s1) =>
    match parentOf fs newpath with
    | .error e => .error e
    | .ok (d2, l2, s2) =>
      match l1, l2 with
      | .norm n1, .norm n2 =>
        match nodeAt fs.root (d1 ++ [n1]) with
        | none => .error .ENOENT
        | some node1 =>
          if node1.kind ≠ .dir ∧ (s1 = true ∨ s2 = true) then .error .ENOTDIR
          else if (d1 ++ [n1]) <+: d2 then .error .EINVAL
          else if kindAt fs.root d2 ≠ some .dir then .error .ENOENT
          else if (d2 ++ [n2]) <+: d1 then .error .ENOTEMPTY
          else
            let moved : FS :=
              { fs with
                root := put (put fs.root (d1 ++ [n1]) none) (d2 ++ [n2]) (some node1)
                cwd := movedCwd (d1 ++ [n1]) (d2 ++ [n2]) fs.cwd }
            match nodeAt fs.root (d2 ++ [n2]) with
            | none => .ok moved
            | some node2 =>
              if fileId (d1 ++ [n1]) node1 = fileId (d2 ++ [n2]) node2 then .ok fs
              else
                match node1, node2 with
                | .dir _, .dir [] => .ok moved
                | .dir _, .dir (_ :: _) => .error .ENOTEMPTY
                | .dir _, _ => .error .ENOTDIR
                | _, .dir _ => .error .EISDIR
                | _, _ => .ok moved
      | _, _ => .error .EBUSY

/-- The function `os.Rename`: an existing directory at `newname` is refused (after the
error for a bad `oldname`) unless the two names are different spellings of one
directory; otherwise the system call `rename`. -/
def Rename (fs : FS) (oldname newname : GoString) : Option Error × FS :=
  let call : Option Error × FS :=
    match renameCall fs oldname newname with
    | .error e => (some (.host e), fs)
    | .ok fs2 => (none, fs2)
  match Lstat fs newname with
  | .ok (locN, .dir es) =>
    match Lstat fs oldname with
    | .error e => (some (.host e), fs)
    | .ok (locO, nodeO) =>
      if newname = oldname ∨ fileId locN (.dir es) ≠ fileId locO nodeO then
        (some (.host .EEXIST), fs)
      else call
  | _ => call

end Os

namespace Io

/-- The function `io.Copy(dst, src)` on two files just opened: the bytes `src` holds
now are written to `dst` from its start.  Reading a directory is an error. -/
def Copy (fs : FS) (dst src : Os.File) : Option Error × FS :=
  match src, dst with
  | .file i, .file j =>
    (none, { fs with
      data := Os.setContent j
        (Os.content fs.data i ++ (Os.content fs.data j).drop (Os.content fs.data i).length)
        fs.data })
  | _, _ => (some (.host .EISDIR), fs)

end Io

end FileExplorer

namespace FileExplorer

/-! ## Package filepath: Walk -/

/-- The part of `os.FileInfo` the program reads. -/
structure FileInfo where
  /-- The base name of the entry. -/
  Name : GoString
  /-- The entry is a directory. -/
  IsDir : Bool
  deriving DecidableEq, Repr

/-- What the host answers about one path while a tree is walked: `os.Lstat` fails, or
it describes the entry; for a directory `readDirNames` then fails or lists the names,
each with the answer for the path below it. -/
inductive Answer where
  | lstatFails (err : Errno)
  | entry (info : FileInfo) (readErr : Option Errno) (children : List (GoString × Answer))

/-- A line written to standard output. -/
inductive Line where
  /-- Fixed text of the program: the menu, a prompt, a message. -/
  | text (s : String)
  /-- The status line of `ListFiles.Execute`. -/
  | listing (path : GoString)
  /-- The status line of `SearchFiles.Execute`. -/
  | searching (query : GoString) (path : GoString)
  /-- The status line of `CopyFile.Execute`. -/
  | copying (source destination : GoString)
  /-- The status line of `MoveFile.Execute`. -/
  | moving (source destination : GoString)
  /-- The status line of `DeleteFile.Execute`. -/
  | deleting (path : GoString)
  /-- A path printed by a walk callback, `fmt.Println(path)`. -/
  | path (p : GoString)
  /-- An error printed by `logError`. -/
  | error (err : Error)
  deriving DecidableEq, Repr

/-- The type `filepath.WalkFunc`: from the path, the file info (nil when `Lstat`
failed) and the error, to the lines the call prints and the error it returns. -/
abbrev WalkFunc := GoString → Option FileInfo → Option Error → List Line × Option Error

namespace Filepath

mutual
/-- The function `walk` of package `filepath` on the answer for `path`; on a failed
`Lstat` it is the call of `fn` that `Walk` and the loop over the names make. -/
def walk (fn : WalkFunc) (path : GoString) : Answer → List Line × Option Error
  | .lstatFails e => fn path none (some (.host e))
  | .entry info readErr children =>
    if info.IsDir = false then fn path (some info) none
    else
      let r1 := fn path (some info) (readErr.map Error.host)
      if readErr.isSome ∨ r1.2.isSome then r1
      else
        let r2 := walkNames fn path children
        (r1.1 ++ r2.1, r2.2)
/-- The loop of `walk` over the names of a directory. -/
def walkNames (fn : WalkFunc) (path : GoString) :
    List (GoString × Answer) → List Line × Option Error
  | [] => ([], none)
  | (name, a) :: rest =>
    let r := walk fn (Join path name) a
    let stop : Bool :=
      match a with
      | .lstatFails _ => r.2.isSome && decide (r.2 ≠ some .SkipDir)
      | .entry info _ _ => r.2.isSome && (!info.IsDir || decide (r.2 ≠ some .SkipDir))
    if stop then r
    else
      let r2 := walkNames fn path rest
      (r.1 ++ r2.1, r2.2)
end

/-- The function `filepath.Walk`, on the answer of the host for `root`. -/
def Walk (a : Answer) (root : GoString) (fn : WalkFunc) : List Line × Option Error :=
  let r := walk fn root a
  if r.2 = some .SkipDir ∨ r.2 = some .SkipAll then (r.1, none) else r

end Filepath

/-- One call of a walk callback: the arguments it receives. -/
structure Visit where
  path : GoString
  info : Option FileInfo
  err : Option Error
  deriving DecidableEq, Repr

mutual
/-- The calls a walk makes when no call stops it, in order. -/
def visits (path : GoString) : Answer → List Visit
  | .lstatFails e => [⟨path, none, some (.host e)⟩]
  | .entry info readErr children =>
    if info.IsDir = false then [⟨path, some info, none⟩]
    else if readErr.isSome then [⟨path, some info, readErr.map Error.host⟩]
    else ⟨path, some info, none⟩ :: visitsNames path children
/-- The calls for the names of a directory. -/
def visitsNames (path : GoString) : List (GoString × Answer) → List Visit
  | [] => []
  | (name, a) :: rest => visits (Filepath.Join path name) a ++ visitsNames path rest
end

namespace Os

/-- The function `basename` of package `os`: the name `os.Lstat` reports for a path. -/
def basename (name : GoString) : GoString :=
  let stripped := (name.reverse.dropWhile (fun c => decide (c = Filepath.Separator))).reverse
  let s := if stripped = [] then name.take 1 else stripped
  if s.length ≤ 1 then s else (Filepath.elements s).getLastD []

/-- One more entry in a list kept in the order of `readDirNames`: sorted by name. -/
def insertByName (e : GoString × Answer) : List (GoString × Answer) → List (GoString × Answer)
  | [] => [e]
  | x :: rest => if e.1 < x.1 then e :: x :: rest else x :: insertByName e rest

mutual
/-- The answers of the host for an entry of the file system and all below it; a walk
does not follow symbolic links. -/
def answerOf (name : GoString) : Node → Answer
  | .file _ => .entry ⟨name, false⟩ none []
  | .symlink _ => .entry ⟨name, false⟩ none []
  | .dir es => .entry ⟨name, true⟩ none (answerNames es)
/-- The answers for the entries of a directory, sorted by name. -/
def answerNames : List (GoString × Node) → List (GoString × Answer)
  | [] => []
  | (k, n) :: rest => insertByName (k, answerOf k n) (answerNames rest)
end

/-- The answers for the names of the directory a walk starts at: `Lstat` is asked about
the joined path, which `filepath.Join` has cleaned by the rules of names alone. -/
def answerFirst (fs : FS) (root : GoString) : List (GoString × Node) → List (GoString × Answer)
  | [] => []
  | (k, _) :: rest =>
    insertByName
      (k, match Lstat fs (Filepath.Join root k) with
        | .error e => .lstatFails e
        | .ok (_, n) => answerOf k n)
      (answerFirst fs root rest)

/-- The answers of the host for a walk that starts at `root`; the names of a directory
that was removed cannot be read. -/
def answer (fs : FS) (root : GoString) : Answer :=
  match Lstat fs root with
  | .error e => .lstatFails e
  | .ok (loc, .dir es) =>
    if kindAt fs.root loc = none then .entry ⟨basename root, true⟩ (some .ENOENT) []
    else .entry ⟨basename root, true⟩ none (answerFirst fs root es)
  | .ok (_, n) => answerOf (basename root) n

end Os

/-! ## The operations of `main.go` -/

structure ListFiles where
  Path : GoString
  Recursive : Bool

structure SearchFiles where
  Path : GoString
  Query : GoString
  Recursive : Bool

structure CopyFile where
  Source : GoString
  Destination : GoString
  Recursive : Bool

structure MoveFile where
  Source : GoString
  Destination : GoString
  Recursive : Bool

structure DeleteFile where
  Path : GoString
  Recursive : Bool

/-- What one `Execute` does: the error it returns, the lines it prints, the file
system it leaves. -/
structure Outcome where
  err : Option Error
  out : List Line
  fs : FS

/-- The function `logError`: the line it prints. -/
def logError (err : Error) : List Line := [.error err]

/-- The callback of `ListFiles.Execute`. -/
def listWalkFn : WalkFunc := fun path _info err =>
  match err with
  | some e => (logError e, none)
  | none => ([.path path], none)

/-- The method `ListFiles.Execute`. -/
def ListFiles.Execute (lf : ListFiles) (fs : FS) : Outcome :=
  let status := [Line.listing lf.Path]
  let r := Filepath.Walk (Os.answer fs lf.Path) lf.Path listWalkFn
  match r.2 with
  | some err => ⟨some err, status ++ r.1, fs⟩
  | none => ⟨none, status ++ r.1, fs⟩

/-- The callback of `SearchFiles.Execute`; `info` is read only after `err` was found
nil.  No walk calls it with both nil (Go would stop with a nil dereference); the
model prints nothing then. -/
def searchWalkFn (U : UnicodeTables) (query : GoString) : WalkFunc := fun path info err =>
  match err with
  | some e => (logError e, none)
  | none =>
    match info with
    | none => ([], none)
    | some info =>
      if !info.IsDir && (decide (query = []) || containsNameOrExtension U info.Name query) then
        ([.path path], none)
      else ([], none)

/-- The method `SearchFiles.Execute`. -/
def SearchFiles.Execute (U : UnicodeTables) (sf : SearchFiles) (fs : FS) : Outcome :=
  let status := [Line.searching sf.Query sf.Path]
  let r := Filepath.Walk (Os.answer fs sf.Path) sf.Path (searchWalkFn U sf.Query)
  match r.2 with
  | some err => ⟨some err, status ++ r.1, fs⟩
  | none => ⟨none, status ++ r.1, fs⟩

/-- The function `copyFile`; closing the two files has no effect on the model. -/
def copyFile (fs : FS) (src dest : GoString) : Option Error × FS :=
  match Os.Open fs src with
  | .error err => (some err, fs)
  | .ok sourceFile =>
    match Os.Create fs dest with
    | .error err => (some err, fs)
    | .ok (destFile, fs1) => Io.Copy fs1 destFile sourceFile

/-- The method `CopyFile.Execute`. -/
def CopyFile.Execute (cf : CopyFile) (fs : FS) : Outcome :=
  let status := [Line.copying cf.Source cf.Destination]
  let r := copyFile fs cf.Source cf.Destination
  match r.1 with
  | some err => ⟨some err, status, r.2⟩
  | none => ⟨none, status, r.2⟩

/-- The function `moveFile`. -/
def moveFile (fs : FS) (src dest : GoString) : Option Error × FS :=
  Os.Rename fs src dest

/-- The method `MoveFile.Execute`. -/
def MoveFile.Execute (mf : MoveFile) (fs : FS) : Outcome :=
  let status := [Line.moving mf.Source mf.Destination]
  let r := moveFile fs mf.Source mf.Destination
  match r.1 with
  | some err => ⟨some err, status, r.2⟩
  | none => ⟨none, status, r.2⟩

/-- The function `deleteFile`. -/
def deleteFile (fs : FS) (path : GoString) (recursive : Bool) : Option Error × FS :=
  if recursive then Os.RemoveAll fs path
  else Os.Remove fs path

/-- The method `DeleteFile.Execute`. -/
def DeleteFile.Execute (df : DeleteFile) (fs : FS) : Outcome :=
  let status := [Line.deleting df.Path]
  let r := deleteFile fs df.Path df.Recursive
  match r.1 with
  | some err => ⟨some err, status, r.2⟩
  | none => ⟨none, status, r.2⟩

end FileExplorer

namespace FileExplorer

/-! ## The interaction loop of `main.go` -/

/-- The process and its surroundings: what the readers of standard input will return,
one line per read as a terminal hands them over (nothing left: every read is empty);
the lines written so far; the file system. -/
structure World where
  stdin : List GoString
  stdout : List Line
  fs : FS

/-- The constant `SOURCE_PATH`. -/
def SOURCE_PATH : String := "Enter the source path:"

/-- The constant `RECURSIVE_BOOL`. -/
def RECURSIVE_BOOL : String := "Enter true/false for recursive:"

/-- The message for a menu selection that is refused. -/
def invalidOperation : String :=
  "Invalid operation number. Please enter a number between 1 and 6."

/-- The message for a boolean that is refused. -/
def invalidBool : String := "Invalid input. Please enter true or false."

/-- The calls `fmt.Println` and `fmt.Print` with fixed text. -/
def World.print (w : World) (s : String) : World :=
  { w with stdout := w.stdout ++ [Line.text s] }

/-- The lines of one `Execute` reach standard output, its file system replaces the
old one. -/
def World.apply (w : World) (r : Outcome) : World :=
  { w with stdout := w.stdout ++ r.out, fs := r.fs }

/-- The caller of `Execute`: `if err := op.Execute(); err != nil { logError(err) }`. -/
def World.report (w : World) (r : Outcome) : World :=
  match r.err with
  | some err => { w.apply r with stdout := (w.apply r).stdout ++ logError err }
  | none => w.apply r

/-- The function `readUserInput`: the prompt is printed, one line is read (the read
error is dropped) and trimmed. -/
def readUserInput (U : UnicodeTables) (prompt : String) (w : World) : GoString × World :=
  let w1 := w.print prompt
  let input := w1.stdin.headD []
  (Strings.TrimSpace U input, { w1 with stdin := w1.stdin.tail })

/-- The recursion of `readBoolInput`; `fuel` bounds the number of lines it may read,
without fuel there is no result. -/
def readBoolInputLoop (U : UnicodeTables) (prompt : String) :
    Nat → World → Option (Bool × World)
  | 0, _ => none
  | fuel + 1, w =>
    let (input, w1) := readUserInput U prompt w
    match Strconv.ParseBool input with
    | .error _ => readBoolInputLoop U prompt fuel (w1.print invalidBool)
    | .ok b => some (b, w1)

/-- The function `readBoolInput`.  It returns once a line parses; when standard input
ends before that it never returns (every further read is empty), which is the result
`none`. -/
def readBoolInput (U : UnicodeTables) (prompt : String) (w : World) : Option (Bool × World) :=
  readBoolInputLoop U prompt (w.stdin.length + 1) w

/-- The function `listFilesOperation`. -/
def listFilesOperation (U : UnicodeTables) (w : World) : Option World :=
  let (sourcePath, w1) := readUserInput U SOURCE_PATH w
  match readBoolInput U RECURSIVE_BOOL w1 with
  | none => none
  | some (recursive, w2) =>
    let listFiles : ListFiles := { Path := sourcePath, Recursive := recursive }
    some (w2.report (listFiles.Execute w2.fs))

/-- The function `searchFilesOperation`. -/
def searchFilesOperation (U : UnicodeTables) (w : World) : Option World :=
  let (sourcePath, w1) := readUserInput U SOURCE_PATH w
  let (query, w2) := readUserInput U "Enter the search query: " w1
  match readBoolInput U RECURSIVE_BOOL w2 with
  | none => none
  | some (recursive, w3) =>
    let searchFiles : SearchFiles :=
      { Path := sourcePath, Query := query, Recursive := recursive }
    some (w3.report (searchFiles.Execute U w3.fs))

/-- The function `copyFileOperation`. -/
def copyFileOperation (U : UnicodeTables) (w : World) : Option World :=
  let (sourcePath, w1) := readUserInput U SOURCE_PATH w
  let (destinationPath, w2) := readUserInput U "Enter the destination path: " w1
  match readBoolInput U RECURSIVE_BOOL w2 with
  | none => none
  | some (recursive, w3) =>
    let copyFile : CopyFile :=
      { Source := sourcePath, Destination := destinationPath,
        Recursive := recursive }
    some (w3.report (copyFile.Execute w3.fs))

/-- The function `moveFileOperation`. -/
def moveFileOperation (U : UnicodeTables) (w : World) : Option World :=
  let (sourcePath, w1) := readUserInput U SOURCE_PATH w
  let (destinationPath, w2) := readUserInput U "Enter the destination path: " w1
  match readBoolInput U RECURSIVE_BOOL w2 with
  | none => none
  | some (recursive, w3) =>
    let moveFile : MoveFile :=
      { Source := sourcePath, Destination := destinationPath,
        Recursive := recursive }
    some (w3.report (moveFile.Execute w3.fs))

/-- The function `deleteFileOperation`. -/
def deleteFileOperation (U : UnicodeTables) (w : World) : Option World :=
  let (sourcePath, w1) := readUserInput U SOURCE_PATH w
  match readBoolInput U RECURSIVE_BOOL w1 with
  | none => none
  | some (recursive, w2) =>
    let deleteFile : DeleteFile := { Path := sourcePath, Recursive := recursive }
    some (w2.report (deleteFile.Execute w2.fs))

/-- How one pass through the loop of `main` ends. -/
inductive Next where
  /-- The pass ends at `continue` or at the end of the `switch`: the menu comes again. -/
  | again
  /-- The pass ends at `return`: the program is over. -/
  | done
  deriving DecidableEq, Repr

/-- The menu that opens every pass. -/
def printMenu (w : World) : World :=
  ((((((w.print "Select an operation:").print "1. List files").print "2. Search files").print
    "3. Copy file").print "4. Move file").print "5. Delete file").print "6. Exit"

/-- The `switch opNum` of `main`, for a number that passed the range check. -/
def dispatch (U : UnicodeTables) (opNum : Int) (w : World) : Option (Next × World) :=
  if opNum = 1 then (listFilesOperation U w).map (fun w2 => (Next.again, w2))
  else if opNum = 2 then (searchFilesOperation U w).map (fun w2 => (Next.again, w2))
  else if opNum = 3 then (copyFileOperation U w).map (fun w2 => (Next.again, w2))
  else if opNum = 4 then (moveFileOperation U w).map (fun w2 => (Next.again, w2))
  else if opNum = 5 then (deleteFileOperation U w).map (fun w2 => (Next.again, w2))
  else if opNum = 6 then some (Next.done, w.print "Exiting program...")
  else some (Next.again, w)

/-- One pass through the loop of `main`; `none` when an operation never gets its
boolean. -/
def mainPass (U : UnicodeTables) (w : World) : Option (Next × World) :=
  let w0 := printMenu w
  let (selectedOp, w1) := readUserInput U "Enter the operation number: " w0
  match Strconv.Atoi selectedOp with
  | .error _ => some (Next.again, w1.print invalidOperation)
  | .ok opNum =>
    if opNum < 1 ∨ opNum > 6 then some (Next.again, w1.print invalidOperation)
    else dispatch U opNum w1

/-- The function `main`: passes until one ends the program; `fuel` bounds their
number. -/
def main (U : UnicodeTables) : Nat → World → Option World
  | 0, _ => none
  | fuel + 1, w =>
    match mainPass U w with
    | none => none
    | some (Next.done, w2) => some w2
    | some (Next.again, w2) => main U fuel w2

end FileExplorer

namespace FileExplorer

/-! ## States for the examples -/

/-- A state of the host: the working directory `/tmp` holds the file `a` (five bytes)
with the second name `b`, the empty directory `e`, the directory `d` with the file
`x`, the symbolic link `l` to `a` and the symbolic link `ld` to `d`. -/
def exampleHost : FS :=
  { root := [(str "tmp", .dir [(str "a", .file 1), (str "b", .file 1), (str "e", .dir []),
      (str "d", .dir [(str "x", .file 2)]), (str "l", .symlink (str "a")),
      (str "ld", .symlink (str "d"))])]
    data := [(1, str "hello"), (2, str "xx")]
    cwd := [str "tmp"] }

/-- The directory of the example in the specification: `a.TXT`, `image.png` and
`report.txt` in a directory `d` of the working directory. -/
def exampleTree : FS :=
  { root := [(str "d", .dir [(str "a.TXT", .file 1), (str "image.png", .file 2),
      (str "report.txt", .file 3)])]
    data := []
    cwd := [] }

/-- The directory of the tests of the repository: three files in a directory. -/
def testTree : FS :=
  { root := [(str "file_operator_test", .dir [(str "file1.txt", .file 1),
      (str "file2.txt", .file 2), (str "file3.txt", .file 3)])]
    data := []
    cwd := [] }

/-- The spellings `strconv.ParseBool` reads as true. -/
def trueSpellings : List GoString :=
  [str "1", str "t", str "T", str "true", str "TRUE", str "True"]

/-- The spellings `strconv.ParseBool` reads as false. -/
def falseSpellings : List GoString :=
  [str "0", str "f", str "F", str "false", str "FALSE", str "False"]

/-- A world for the examples: nothing printed yet, one file `a`. -/
def exampleWorld (stdin : List GoString) : World :=
  ⟨stdin, [], ⟨[(str "a", .file 1)], [(1, str "x")], []⟩⟩

end FileExplorer

namespace FileExplorer

/-! ## Strings: lower-casing and the extension -/

namespace Utf8

theorem first_lead {b sz lo hi : Nat} (h : first b = .lead sz lo hi) :
    (sz = 2 ∨ sz = 3 ∨ sz = 4) ∧ 0x80 ≤ lo := by
  unfold first at h
  repeat' split at h
  all_goals first
    | (injection h with h1 h2 h3; subst h1; subst h2; subst h3; decide)
    | (exact absurd h (by simp))

theorem isCont_ascii {a : Nat} (h : a < 0x80) : isCont a = false := by
  simp [isCont]; omega

/-- A byte below `RuneSelf` ends every encoding that is still open: the first rune
of `pre ++ a :: rest` is the first rune of `pre`. -/
theorem decode_append_ascii (pre rest : GoString) (a : Nat) (ha : a < 0x80)
    (hne : pre ≠ []) :
    DecodeRuneInString (pre ++ a :: rest) = DecodeRuneInString pre := by
  have hc := isCont_ascii ha
  match pre, hne with
  | p0 :: t, _ =>
    simp only [DecodeRuneInString, List.cons_append]
    cases hf : first p0 with
    | ascii => rfl
    | invalid => rfl
    | lead sz lo hi =>
      obtain ⟨hsz, hlo⟩ := first_lead hf
      have hlo2 : a < lo := by omega
      match t with
      | [] =>
        rcases hsz with h | h | h <;> subst h <;> simp [hlo2, hc]
      | [p1] =>
        rcases hsz with h | h | h <;> subst h <;> simp [hlo2, hc]
      | [p1, p2] =>
        rcases hsz with h | h | h <;> subst h <;> simp [hlo2, hc]
      | p1 :: p2 :: p3 :: t3 =>
        rcases hsz with h | h | h <;> subst h <;> simp only [List.cons_append, List.length_cons,
          List.length_append] <;> split_ifs <;> first | rfl | (exfalso; omega)

theorem decode_width_pos (s : GoString) (h : s ≠ []) : 1 ≤ (DecodeRuneInString s).2 := by
  match s, h with
  | s0 :: t, _ =>
    simp only [DecodeRuneInString]
    repeat' split
    all_goals simp

theorem decode_width_le (s : GoString) : (DecodeRuneInString s).2 ≤ s.length := by
  match s with
  | [] => simp [DecodeRuneInString]
  | s0 :: t =>
    simp only [DecodeRuneInString]
    repeat' split
    all_goals simp_all

theorem decode_ascii (a : Nat) (t : GoString) (ha : a < 0x80) :
    DecodeRuneInString (a :: t) = (a, 1) := by
  have : first a = .ascii := by simp [first, ha]
  simp [DecodeRuneInString, this]

end Utf8

namespace Strings

/-- More fuel than the length of the string does not change the result of the loop. -/
theorem mapLoop_fuel (m : Nat → Nat) (fuel : Nat) :
    ∀ s : GoString, s.length ≤ fuel → mapLoop m fuel s = mapLoop m s.length s := by
  induction fuel using Nat.strong_induction_on with
  | _ fuel ih =>
    intro s hs
    match s, fuel with
    | [], 0 => rfl
    | [], _ + 1 => rfl
    | c :: t, 0 => simp at hs
    | c :: t, f + 1 =>
      have hw := Utf8.decode_width_pos (c :: t) (by simp)
      have hlen : ((c :: t).drop (Utf8.DecodeRuneInString (c :: t)).2).length ≤ t.length := by
        simp only [List.length_drop, List.length_cons]; omega
      simp only [mapLoop, List.length_cons]
      rw [ih f (by omega) _ (by simp only [List.length_cons] at hs; omega),
        ih t.length (by simp only [List.length_cons] at hs; omega) _ hlen]

theorem Map_nil (m : Nat → Nat) : Map m [] = [] := rfl

theorem Map_cons (m : Nat → Nat) (c : Nat) (t : GoString) :
    Map m (c :: t) =
      Utf8.EncodeRune (m (Utf8.DecodeRuneInString (c :: t)).1) ++
        Map m ((c :: t).drop (Utf8.DecodeRuneInString (c :: t)).2) := by
  have hw := Utf8.decode_width_pos (c :: t) (by simp)
  have hlen : ((c :: t).drop (Utf8.DecodeRuneInString (c :: t)).2).length ≤ t.length := by
    simp only [List.length_drop, List.length_cons]; omega
  simp only [Map, mapLoop, List.length_cons]
  rw [mapLoop_fuel m t.length _ hlen]

/-- The mapping distributes over a split in front of a byte below `RuneSelf`. -/
theorem Map_append_ascii (m : Nat → Nat) (a : Nat) (rest : GoString) (ha : a < 0x80) :
    ∀ (n : Nat) (pre : GoString), pre.length ≤ n →
      Map m (pre ++ a :: rest) = Map m pre ++ Map m (a :: rest) := by
  intro n
  induction n with
  | zero =>
    intro pre h
    have : pre = [] := List.length_eq_zero.mp (by omega)
    subst this; rfl
  | succ n ih =>
    intro pre h
    match pre with
    | [] => rfl
    | c :: t =>
      have hd := Utf8.decode_append_ascii (c :: t) rest a ha (by simp)
      have hw := Utf8.decode_width_pos (c :: t) (by simp)
      have hle := Utf8.decode_width_le (c :: t)
      rw [List.cons_append, Map_cons, Map_cons, ← List.cons_append, hd,
        List.drop_append_of_le_length hle, ih _ (by
          simp only [List.length_drop, List.length_cons] at h ⊢; omega), List.append_assoc]

/-- On a string of bytes below `RuneSelf` the rune loop is the byte loop. -/
theorem Map_ascii (U : UnicodeTables) :
    ∀ s : GoString, s.all (fun c => decide (c < Utf8.RuneSelf)) = true →
      Map (Unicode.ToLower U) s = s.map (fun c => if 65 ≤ c ∧ c ≤ 90 then c + 32 else c) := by
  intro s
  induction s with
  | nil => intro _; rfl
  | cons c t ih =>
    intro h
    simp only [List.all_cons, Bool.and_eq_true, decide_eq_true_eq, Utf8.RuneSelf] at h
    rw [Map_cons, Utf8.decode_ascii c t h.1]
    simp only [List.drop_succ_cons, List.drop_zero, List.map_cons]
    rw [ih h.2]
    have hc : c ≤ 0x7F := by omega
    simp only [Unicode.ToLower, hc, if_true]
    split
    · rename_i hu
      have : c + 32 ≤ 0x7F := by omega
      simp [Utf8.EncodeRune, this]
    · simp [Utf8.EncodeRune, hc]

/-- Lower-casing is always the rune loop. -/
theorem ToLower_eq_Map (U : UnicodeTables) (s : GoString) :
    ToLower U s = Map (Unicode.ToLower U) s := by
  unfold ToLower
  split
  · rename_i h; exact (Map_ascii U s h).symm
  · rfl

theorem ToLower_append_ascii (U : UnicodeTables) (pre rest : GoString) (a : Nat)
    (ha : a < 0x80) :
    ToLower U (pre ++ a :: rest) = ToLower U pre ++ ToLower U (a :: rest) := by
  simp only [ToLower_eq_Map]
  exact Map_append_ascii _ a rest ha pre.length pre (le_refl _)

theorem ToLower_nil (U : UnicodeTables) : ToLower U [] = [] := rfl

theorem Contains_nil (s : GoString) : Contains s [] = true := by
  simp [Contains]

end Strings

namespace Filepath

theorem extLoop_spec : ∀ (rev acc : GoString),
    extLoop rev acc = [] ∨
      ∃ pre, extLoop rev acc = 46 :: (extLoop rev acc).tail ∧
        rev.reverse ++ acc = pre ++ extLoop rev acc := by
  intro rev
  induction rev with
  | nil => intro acc; left; rfl
  | cons c rev ih =>
    intro acc
    unfold extLoop
    by_cases h1 : c = Separator
    · left; simp [h1]
    · by_cases h2 : c = 46
      · right
        subst h2
        refine ⟨rev.reverse, ?_, ?_⟩
        · simp [h1]
        · simp [h1]
      · simp only [h1, h2, if_false]
        rcases ih (c :: acc) with h | ⟨pre, h3, h4⟩
        · left; exact h
        · right
          refine ⟨pre, h3, ?_⟩
          rw [← h4]; simp

/-- The extension is empty, or it starts with a dot and is a suffix of the path. -/
theorem Ext_spec (path : GoString) :
    Ext path = [] ∨ ∃ pre rest, Ext path = 46 :: rest ∧ path = pre ++ 46 :: rest := by
  rcases extLoop_spec path.reverse [] with h | ⟨pre, h1, h2⟩
  · left; exact h
  · right
    refine ⟨pre, (extLoop path.reverse []).tail, h1, ?_⟩
    simp only [List.reverse_reverse, List.append_nil] at h2
    rw [← h1]; exact h2

end Filepath

/-- Whatever the extension contains, the name contains. -/
theorem containsIgnoreCase_Ext (U : UnicodeTables) (name query : GoString)
    (h : containsIgnoreCase U (Filepath.Ext name) query = true) :
    containsIgnoreCase U name query = true := by
  rcases Filepath.Ext_spec name with h0 | ⟨pre, rest, h1, h2⟩
  · rw [h0] at h
    simp only [containsIgnoreCase, Strings.Contains, Strings.ToLower_nil, decide_eq_true_eq] at h ⊢
    have : Strings.ToLower U query = [] := List.eq_nil_of_infix_nil h
    rw [this]; exact List.nil_infix
  · rw [h1] at h
    simp only [containsIgnoreCase, Strings.Contains, decide_eq_true_eq] at h ⊢
    have hs : Strings.ToLower U name =
        Strings.ToLower U pre ++ Strings.ToLower U (46 :: rest) := by
      conv_lhs => rw [h2]
      exact Strings.ToLower_append_ascii U pre rest 46 (by decide)
    rw [hs]
    exact h.trans (List.suffix_append _ _).isInfix

end FileExplorer

namespace FileExplorer

/-! ## The tree of the file system: what a change leaves alone -/

namespace Os

theorem lookupEntry_setEntry_same (name : GoString) (n : Node) :
    ∀ es, lookupEntry name (setEntry name n es) = some n := by
  intro es
  induction es with
  | nil => simp [setEntry, lookupEntry]
  | cons hd tl ih =>
    obtain ⟨k, m⟩ := hd
    unfold setEntry
    by_cases h1 : k = name
    · simp [h1, lookupEntry]
    · simp [h1, lookupEntry, ih]

theorem lookupEntry_setEntry_other (name other : GoString) (n : Node) (h : other ≠ name) :
    ∀ es, lookupEntry other (setEntry name n es) = lookupEntry other es := by
  intro es
  induction es with
  | nil => simp [setEntry, lookupEntry, Ne.symm h]
  | cons hd tl ih =>
    obtain ⟨k, m⟩ := hd
    unfold setEntry
    by_cases h1 : k = name
    · subst h1
      simp [lookupEntry, Ne.symm h]
    · by_cases h3 : k = other
      · subst h3
        simp [h1, lookupEntry]
      · simp [h1, h3, lookupEntry, ih]

theorem lookupEntry_delEntry_same (name : GoString) :
    ∀ es, lookupEntry name (delEntry name es) = none := by
  intro es
  induction es with
  | nil => simp [delEntry, lookupEntry]
  | cons hd tl ih =>
    obtain ⟨k, m⟩ := hd
    unfold delEntry
    by_cases h1 : k = name
    · simp [h1, ih]
    · simp [h1, lookupEntry, ih]

theorem lookupEntry_delEntry_other (name other : GoString) (h : other ≠ name) :
    ∀ es, lookupEntry other (delEntry name es) = lookupEntry other es := by
  intro es
  induction es with
  | nil => simp [delEntry, lookupEntry]
  | cons hd tl ih =>
    obtain ⟨k, m⟩ := hd
    unfold delEntry
    by_cases h1 : k = name
    · subst h1
      simp [lookupEntry, Ne.symm h, ih]
    · by_cases h3 : k = other
      · subst h3
        simp [h1, lookupEntry]
      · simp [h1, h3, lookupEntry, ih]

theorem lookupEntry_putEntry_same (name : GoString) (r : Option Node) (es) :
    lookupEntry name (putEntry name r es) = r := by
  cases r with
  | none => exact lookupEntry_delEntry_same name es
  | some n => exact lookupEntry_setEntry_same name n es

theorem lookupEntry_putEntry_other (name other : GoString) (r : Option Node)
    (h : other ≠ name) (es) :
    lookupEntry other (putEntry name r es) = lookupEntry other es := by
  cases r with
  | none => exact lookupEntry_delEntry_other name other h es
  | some n => exact lookupEntry_setEntry_other name other n h es

/-- The entry at a place, one name at a time. -/
theorem nodeAt_cons (es : List (GoString × Node)) (c : GoString) (rest : Loc) :
    nodeAt es (c :: rest) =
      match lookupEntry c es with
      | none => none
      | some (.dir sub) => nodeAt sub rest
      | some n => if rest = [] then some n else none := by
  cases rest with
  | nil =>
    simp only [nodeAt, find]
    cases h : lookupEntry c es with
    | none => rfl
    | some n => cases n <;> simp
  | cons c2 r2 =>
    simp only [nodeAt, find]
    cases h : lookupEntry c es with
    | none => rfl
    | some n => cases n <;> simp

/-- The change of an entry, one name at a time. -/
theorem put_cons (es : List (GoString × Node)) (c : GoString) (rest : Loc) (r : Option Node) :
    put es (c :: rest) r =
      if rest = [] then putEntry c r es
      else
        match lookupEntry c es with
        | some (.dir sub) => setEntry c (.dir (put sub rest r)) es
        | _ => es := by
  cases rest with
  | nil => simp [put, putIn]
  | cons c2 r2 =>
    simp only [put, putIn]
    cases h : lookupEntry c es with
    | none => simp
    | some n => cases n <;> simp

theorem kindAt_nil (es : List (GoString × Node)) : kindAt es [] = some .dir := rfl

/-- A change of the entry at `loc` leaves the kind of every place alone that is not
`loc` or below it. -/
theorem kindAt_put_other (r : Option Node) :
    ∀ (loc : Loc) (es : List (GoString × Node)) (q : Loc),
      ¬ (loc <+: q) → kindAt (put es loc r) q = kindAt es q := by
  intro loc
  induction loc with
  | nil =>
    intro es q h
    exact absurd (List.nil_prefix) h
  | cons c rest ih =>
    intro es q h
    cases q with
    | nil => rfl
    | cons c1 q1 =>
      rw [put_cons]
      by_cases hr : rest = []
      · subst hr
        have hne : c1 ≠ c := by
          intro hc
          apply h
          rw [hc]
          exact List.prefix_iff_eq_append.mpr (by simp)
        simp only [if_true, kindAt, nodeAt_cons, lookupEntry_putEntry_other c c1 r hne]
      · simp only [hr, if_false]
        cases hl : lookupEntry c es with
        | none => rfl
        | some n =>
          cases n with
          | file i => rfl
          | symlink t => rfl
          | dir sub =>
            simp only
            by_cases hc : c1 = c
            · subst hc
              have h2 : ¬ (rest <+: q1) := by
                intro hp
                exact h ((List.prefix_cons_inj c1).mpr hp)
              have := ih sub q1 h2
              simp only [kindAt] at this
              simp only [kindAt, nodeAt_cons, lookupEntry_setEntry_same, hl, this]
            · simp only [kindAt, nodeAt_cons, lookupEntry_setEntry_other c c1 _ hc]

/-- After a change, the entry at the changed place is what was put there, when the
directory that holds it is there. -/
theorem nodeAt_put_same (r : Option Node) :
    ∀ (loc : Loc) (es : List (GoString × Node)),
      loc ≠ [] → kindAt es loc.dropLast = some .dir → nodeAt (put es loc r) loc = r := by
  intro loc
  induction loc with
  | nil => intro es h; exact absurd rfl h
  | cons c rest ih =>
    intro es _ hk
    rw [put_cons]
    by_cases hr : rest = []
    · subst hr
      simp only [if_true, nodeAt, find, lookupEntry_putEntry_same]
    · simp only [hr, if_false]
      have hd : (c :: rest).dropLast = c :: rest.dropLast := by
        cases rest with
        | nil => exact absurd rfl hr
        | cons c2 r2 => rfl
      rw [hd] at hk
      simp only [kindAt, nodeAt_cons] at hk
      cases hl : lookupEntry c es with
      | none => rw [hl] at hk; simp at hk
      | some n =>
        rw [hl] at hk
        cases n with
        | file i =>
          simp only at hk
          split_ifs at hk <;> simp [Node.kind] at hk
        | symlink t =>
          simp only at hk
          split_ifs at hk <;> simp [Node.kind] at hk
        | dir sub =>
          simp only at hk
          simp only [nodeAt_cons, lookupEntry_setEntry_same]
          exact ih sub hr hk

/-- After an entry was removed, nothing is at its place or below it. -/
theorem kindAt_put_none_below :
    ∀ (loc : Loc) (es : List (GoString × Node)) (q : Loc),
      loc ≠ [] → loc <+: q → kindAt (put es loc none) q = none := by
  intro loc
  induction loc with
  | nil => intro es q h; exact absurd rfl h
  | cons c rest ih =>
    intro es q _ hp
    obtain ⟨t, rfl⟩ := hp
    rw [put_cons]
    by_cases hr : rest = []
    · subst hr
      simp only [if_true, kindAt, List.cons_append, nodeAt_cons, lookupEntry_putEntry_same]
      rfl
    · simp only [hr, if_false]
      have hne : rest ++ t ≠ [] := by
        intro h
        exact hr (List.append_eq_nil.mp h).1
      cases hl : lookupEntry c es with
      | none => simp only [kindAt, List.cons_append, nodeAt_cons, hl]; rfl
      | some n =>
        cases n with
        | file i => simp only [kindAt, List.cons_append, nodeAt_cons, hl, hne, if_false]; rfl
        | symlink x => simp only [kindAt, List.cons_append, nodeAt_cons, hl, hne, if_false]; rfl
        | dir sub =>
          simp only [kindAt, List.cons_append, nodeAt_cons, lookupEntry_setEntry_same]
          exact ih sub (rest ++ t) hr (List.prefix_append _ _)

/-- An entry is below directories only. -/
theorem kindAt_prefix_dir :
    ∀ (p : Loc) (es : List (GoString × Node)) (q : Loc) (k : Kind),
      q ≠ [] → kindAt es (p ++ q) = some k → kindAt es p = some .dir := by
  intro p
  induction p with
  | nil => intro es q k _ _; rfl
  | cons c p2 ih =>
    intro es q k hq h
    have hne : p2 ++ q ≠ [] := by
      intro h2
      exact hq (List.append_eq_nil.mp h2).2
    simp only [kindAt, List.cons_append, nodeAt_cons] at h ⊢
    cases hl : lookupEntry c es with
    | none => rw [hl] at h; simp at h
    | some n =>
      rw [hl] at h
      cases n with
      | file i => simp [hne] at h
      | symlink x => simp [hne] at h
      | dir sub => exact ih sub q k hq h

/-- The entry at a place below a place. -/
theorem nodeAt_append :
    ∀ (p : Loc) (es : List (GoString × Node)) (t : Loc),
      nodeAt es (p ++ t) =
        match nodeAt es p with
        | none => none
        | some (.dir sub) => nodeAt sub t
        | some n => if t = [] then some n else none := by
  intro p
  induction p with
  | nil => intro es t; rfl
  | cons c p2 ih =>
    intro es t
    rw [List.cons_append, nodeAt_cons, nodeAt_cons]
    cases hl : lookupEntry c es with
    | none => rfl
    | some n =>
      cases n with
      | file i =>
        simp only
        by_cases hp : p2 = []
        · subst hp
          simp
        · have : p2 ++ t ≠ [] := by
            intro h
            exact hp (List.append_eq_nil.mp h).1
          simp [hp, this]
      | symlink x =>
        simp only
        by_cases hp : p2 = []
        · subst hp
          simp
        · have : p2 ++ t ≠ [] := by
            intro h
            exact hp (List.append_eq_nil.mp h).1
          simp [hp, this]
      | dir sub => exact ih sub t

/-- Nothing is below an empty directory. -/
theorem kindAt_below_empty (es : List (GoString × Node)) (p t : Loc) (ht : t ≠ [])
    (h : nodeAt es p = some (.dir [])) : kindAt es (p ++ t) = none := by
  unfold kindAt
  rw [nodeAt_append, h]
  cases t with
  | nil => exact absurd rfl ht
  | cons c t2 =>
    simp only [nodeAt_cons, lookupEntry]
    rfl

/-- Nothing is below a place that holds no directory. -/
theorem kindAt_below_none (es : List (GoString × Node)) (p q : Loc)
    (hq : q ≠ []) (hp : kindAt es p ≠ some .dir) : kindAt es (p ++ q) = none := by
  cases h : kindAt es (p ++ q) with
  | none => rfl
  | some k => exact absurd (kindAt_prefix_dir p es q k hq h) hp

theorem kindAt_eq_none_iff (es : List (GoString × Node)) (loc : Loc) :
    kindAt es loc = none ↔ nodeAt es loc = none := by
  simp [kindAt]

theorem kindAt_of_nodeAt (es : List (GoString × Node)) (loc : Loc) (n : Node)
    (h : nodeAt es loc = some n) : kindAt es loc = some n.kind := by
  simp [kindAt, h]

/-- The place of an entry determines the places that are not below it. -/
theorem put_some_keeps (es : List (GoString × Node)) (loc : Loc) (n : Node)
    (hnone : kindAt es loc = none) (q : Loc) (k : Kind)
    (h : kindAt es q = some k) : kindAt (put es loc (some n)) q = some k := by
  by_cases hp : loc <+: q
  · obtain ⟨t, rfl⟩ := hp
    by_cases ht : t = []
    · subst ht
      rw [List.append_nil] at h
      rw [hnone] at h
      cases h
    · have := kindAt_prefix_dir loc es t k ht h
      rw [hnone] at this
      cases this
  · rw [kindAt_put_other (some n) loc es q hp]
    exact h

/-! ### The bytes of the files -/

theorem content_setContent (j : Nat) (b : GoString) :
    ∀ (d : List (Nat × GoString)) (i : Nat),
      content (setContent j b d) i = if i = j then b else content d i := by
  intro d
  induction d with
  | nil =>
    intro i
    by_cases h : i = j
    · simp [setContent, content, h]
    · simp [setContent, content, h, Ne.symm h]
  | cons hd tl ih =>
    intro i
    obtain ⟨k, old⟩ := hd
    unfold setContent
    by_cases h1 : k = j
    · subst h1
      by_cases h : i = k
      · simp [content, h]
      · simp [content, h, Ne.symm h]
    · by_cases h : i = j
      · subst h
        simp [h1, content, ih]
      · by_cases h3 : k = i
        · subst h3
          simp [h1, content]
        · simp [h1, h, h3, content, ih]

/-! ### Numbers of files -/

theorem lookupEntry_inos (c : GoString) (n : Node) :
    ∀ (es : List (GoString × Node)), lookupEntry c es = some n →
      ∀ i, i ∈ inos n → i ∈ inosList es := by
  intro es
  induction es with
  | nil => intro h; simp [lookupEntry] at h
  | cons hd tl ih =>
    obtain ⟨k, m⟩ := hd
    intro h i hi
    simp only [lookupEntry] at h
    by_cases hk : k = c
    · simp only [hk, if_true, Option.some.injEq] at h
      subst h
      simp [inosList, hi]
    · simp only [hk, if_false] at h
      simp [inosList, ih h i hi]

theorem nodeAt_file_inos :
    ∀ (loc : Loc) (es : List (GoString × Node)) (i : Nat),
      nodeAt es loc = some (.file i) → i ∈ inosList es := by
  intro loc
  induction loc with
  | nil => intro es i h; simp [nodeAt] at h
  | cons c rest ih =>
    intro es i h
    rw [nodeAt_cons] at h
    cases hl : lookupEntry c es with
    | none => rw [hl] at h; cases h
    | some n =>
      rw [hl] at h
      cases n with
      | file j =>
        simp only at h
        split_ifs at h
        · injection h with h
          injection h with h
          subst h
          exact lookupEntry_inos c _ es hl j (by simp [inos])
      | symlink x =>
        simp only at h
        split_ifs at h
        cases h
      | dir sub =>
        simp only at h
        exact lookupEntry_inos c _ es hl i (by simpa [inos] using ih sub i h)

theorem le_foldr_max (i : Nat) : ∀ (l : List Nat), i ∈ l → i ≤ l.foldr max 0 := by
  intro l
  induction l with
  | nil => intro h; cases h
  | cons x xs ih =>
    intro h
    simp only [List.foldr_cons]
    rcases List.mem_cons.mp h with h | h
    · subst h
      exact le_max_left _ _
    · exact le_trans (ih h) (le_max_right _ _)

/-- The number `fresh` is above the number of every file in the tree. -/
theorem lt_fresh_of_nodeAt (fs : FS) (loc : Loc) (i : Nat)
    (h : nodeAt fs.root loc = some (.file i)) : i < fresh fs := by
  have h1 := nodeAt_file_inos loc fs.root i h
  have h2 : i ∈ inosList fs.root ++ fs.data.map (fun p => p.1) :=
    List.mem_append.mpr (Or.inl h1)
  have := le_foldr_max i _ h2
  unfold fresh
  omega

end Os

end FileExplorer

namespace FileExplorer

/-! ## Path resolution: what a change of the tree leaves alone -/

namespace Os

/-- After the entry at `loc` and all below it went, a walk over directories ends where
it ended before or fails because an element is not there. -/
theorem walkElems_removed (root root2 : List (GoString × Node)) (loc : Loc)
    (follow follow2 : Nat → Loc → List GoString → Except Errno (Loc × Nat))
    (h1 : ∀ q, ¬ (loc <+: q) → kindAt root2 q = kindAt root q)
    (h2 : ∀ q, loc <+: q → kindAt root2 q = none)
    (hf : ∀ b cur comps, follow2 b cur comps = follow b cur comps ∨
      follow2 b cur comps = .error .ENOENT) :
    ∀ (comps : List GoString) (b : Nat) (cur : Loc),
      walkElems follow2 root2 b cur comps = walkElems follow root b cur comps ∨
        walkElems follow2 root2 b cur comps = .error .ENOENT := by
  intro comps
  induction comps with
  | nil => intro b cur; left; simp [walkElems]
  | cons c rest ih =>
    intro b cur
    simp only [walkElems]
    by_cases hc1 : c = [] ∨ c = [46]
    · simp only [hc1, if_true]
      exact ih b cur
    · simp only [hc1, if_false]
      by_cases hc2 : c = [46, 46]
      · simp only [hc2, if_true]
        exact ih _ _
      · simp only [hc2, if_false]
        by_cases hL : loc <+: cur ++ [c]
        · right
          rw [h2 _ hL]
        · rw [h1 _ hL]
          cases hk : kindAt root (cur ++ [c]) with
          | none => left; rfl
          | some k =>
            cases k with
            | file i => left; rfl
            | dir => exact ih _ _
            | symlink t =>
              simp only
              by_cases hb : b = 0
              · left; simp [hb]
              · simp only [hb, if_false]
                by_cases ht : t = []
                · left; simp [ht]
                · simp only [ht, if_false]
                  rcases hf (b - 1) (if t.head? = some Filepath.Separator then [] else cur)
                    (Filepath.elements t) with h | h
                  · rw [h]
                    cases hr : follow (b - 1)
                        (if t.head? = some Filepath.Separator then [] else cur)
                        (Filepath.elements t) with
                    | error e => left; rfl
                    | ok r => exact ih _ _
                  · rw [h]
                    right
                    rfl

theorem walkDirs_removed (root root2 : List (GoString × Node)) (loc : Loc)
    (h1 : ∀ q, ¬ (loc <+: q) → kindAt root2 q = kindAt root q)
    (h2 : ∀ q, loc <+: q → kindAt root2 q = none) :
    ∀ (depth : Nat) (b : Nat) (cur : Loc) (comps : List GoString),
      walkDirs root2 depth b cur comps = walkDirs root depth b cur comps ∨
        walkDirs root2 depth b cur comps = .error .ENOENT := by
  intro depth
  induction depth with
  | zero =>
    intro b cur comps
    exact walkElems_removed root root2 loc _ _ h1 h2 (fun _ _ _ => Or.inl rfl) comps b cur
  | succ d ih =>
    intro b cur comps
    exact walkElems_removed root root2 loc _ _ h1 h2 ih comps b cur

/-- After entries were added, a walk over directories that ended well ends at the same
place. -/
theorem walkElems_inserted (root root2 : List (GoString × Node))
    (follow follow2 : Nat → Loc → List GoString → Except Errno (Loc × Nat))
    (hk : ∀ q k, kindAt root q = some k → kindAt root2 q = some k)
    (hf : ∀ b cur comps r, follow b cur comps = .ok r → follow2 b cur comps = .ok r) :
    ∀ (comps : List GoString) (b : Nat) (cur : Loc) (r : Loc × Nat),
      walkElems follow root b cur comps = .ok r →
        walkElems follow2 root2 b cur comps = .ok r := by
  intro comps
  induction comps with
  | nil => intro b cur r h; simpa [walkElems] using h
  | cons c rest ih =>
    intro b cur r h
    simp only [walkElems] at h ⊢
    by_cases hc1 : c = [] ∨ c = [46]
    · simp only [hc1, if_true] at h ⊢
      exact ih b cur r h
    · simp only [hc1, if_false] at h ⊢
      by_cases hc2 : c = [46, 46]
      · simp only [hc2, if_true] at h ⊢
        exact ih _ _ r h
      · simp only [hc2, if_false] at h ⊢
        cases hkk : kindAt root (cur ++ [c]) with
        | none => rw [hkk] at h; cases h
        | some k =>
          rw [hkk] at h
          rw [hk _ _ hkk]
          cases k with
          | file i => cases h
          | dir => exact ih _ _ r h
          | symlink t =>
            simp only at h ⊢
            by_cases hb : b = 0
            · simp [hb] at h
            · simp only [hb, if_false] at h ⊢
              by_cases ht : t = []
              · simp [ht] at h
              · simp only [ht, if_false] at h ⊢
                cases hr : follow (b - 1)
                    (if t.head? = some Filepath.Separator then [] else cur)
                    (Filepath.elements t) with
                | error e => rw [hr] at h; cases h
                | ok r2 =>
                  rw [hr] at h
                  rw [hf _ _ _ _ hr]
                  exact ih _ _ r h

theorem walkDirs_inserted (root root2 : List (GoString × Node))
    (hk : ∀ q k, kindAt root q = some k → kindAt root2 q = some k) :
    ∀ (depth : Nat) (b : Nat) (cur : Loc) (comps : List GoString) (r : Loc × Nat),
      walkDirs root depth b cur comps = .ok r → walkDirs root2 depth b cur comps = .ok r := by
  intro depth
  induction depth with
  | zero =>
    intro b cur comps r h
    exact walkElems_inserted root root2 _ _ hk (fun _ _ _ _ h => by cases h) comps b cur r h
  | succ d ih =>
    intro b cur comps r h
    exact walkElems_inserted root root2 _ _ hk ih comps b cur r h

/-- A resolution that found an entry finds the same entry after entries were added. -/
theorem lastWalk_inserted_here (root root2 : List (GoString × Node))
    (hk : ∀ q k, kindAt root q = some k → kindAt root2 q = some k) :
    ∀ (depth budget : Nat) (dir : Loc) (last : Last) (slash fl : Bool) (loc : Loc),
      lastWalk root depth budget dir last slash fl = .ok (.here loc) →
        lastWalk root2 depth budget dir last slash fl = .ok (.here loc) := by
  intro depth
  induction depth with
  | zero =>
    intro budget dir last slash fl loc h
    cases last with
    | dot => simpa [lastWalk] using h
    | dotdot => simpa [lastWalk] using h
    | root => simpa [lastWalk] using h
    | norm name =>
      simp only [lastWalk] at h ⊢
      cases hkk : kindAt root (dir ++ [name]) with
      | none =>
        rw [hkk] at h
        simp only at h
        split_ifs at h
        all_goals cases h
      | some k =>
        rw [hkk] at h
        rw [hk _ _ hkk]
        cases k with
        | file i => exact h
        | dir => exact h
        | symlink t =>
          simp only at h ⊢
          split_ifs at h ⊢
          all_goals exact h
  | succ d ih =>
    intro budget dir last slash fl loc h
    cases last with
    | dot => simpa [lastWalk] using h
    | dotdot => simpa [lastWalk] using h
    | root => simpa [lastWalk] using h
    | norm name =>
      simp only [lastWalk] at h ⊢
      cases hkk : kindAt root (dir ++ [name]) with
      | none =>
        rw [hkk] at h
        simp only at h
        split_ifs at h
        all_goals cases h
      | some k =>
        rw [hkk] at h
        rw [hk _ _ hkk]
        cases k with
        | file i => exact h
        | dir => exact h
        | symlink t =>
          simp only at h ⊢
          by_cases hc : fl = false ∧ slash = false
          · simpa only [hc, and_self, if_true] using h
          · simp only [hc, if_false] at h ⊢
            by_cases hb : budget = 0
            · simp [hb] at h
            · simp only [hb, if_false] at h ⊢
              by_cases ht : t = []
              · simp [ht] at h
              · simp only [ht, if_false] at h ⊢
                cases hp : parentWalk root d (budget - 1) dir (split t) with
                | error e => rw [hp] at h; cases h
                | ok r =>
                  rw [hp] at h
                  have hp2 : parentWalk root2 d (budget - 1) dir (split t) = .ok r :=
                    walkDirs_inserted root root2 hk d _ _ _ r hp
                  rw [hp2]
                  exact ih _ _ _ _ _ _ h

/-- Where a resolution found nothing, nothing is there, in a directory that is. -/
theorem lastWalk_missing_spec (root : List (GoString × Node)) :
    ∀ (depth budget : Nat) (dir : Loc) (last : Last) (slash fl : Bool)
      (d : Loc) (n : GoString) (s : Bool),
      lastWalk root depth budget dir last slash fl = .ok (.missing d n s) →
        kindAt root (d ++ [n]) = none ∧ kindAt root d = some .dir := by
  intro depth
  induction depth with
  | zero =>
    intro budget dir last slash fl d n s h
    cases last with
    | dot => simp [lastWalk] at h
    | dotdot => simp [lastWalk] at h
    | root => simp [lastWalk] at h
    | norm name =>
      simp only [lastWalk] at h
      cases hkk : kindAt root (dir ++ [name]) with
      | none =>
        rw [hkk] at h
        simp only at h
        split_ifs at h with hd
        injection h with h
        injection h with h1 h2 h3
        subst h1; subst h2
        exact ⟨hkk, hd⟩
      | some k =>
        rw [hkk] at h
        cases k with
        | file i =>
          simp only at h
          split_ifs at h
          all_goals cases h
        | dir => cases h
        | symlink t =>
          simp only at h
          split_ifs at h
          all_goals cases h
  | succ dp ih =>
    intro budget dir last slash fl d n s h
    cases last with
    | dot => simp [lastWalk] at h
    | dotdot => simp [lastWalk] at h
    | root => simp [lastWalk] at h
    | norm name =>
      simp only [lastWalk] at h
      cases hkk : kindAt root (dir ++ [name]) with
      | none =>
        rw [hkk] at h
        simp only at h
        split_ifs at h with hd
        injection h with h
        injection h with h1 h2 h3
        subst h1; subst h2
        exact ⟨hkk, hd⟩
      | some k =>
        rw [hkk] at h
        cases k with
        | file i =>
          simp only at h
          split_ifs at h
          all_goals cases h
        | dir => cases h
        | symlink t =>
          simp only at h
          by_cases hc : fl = false ∧ slash = false
          · simp only [hc, and_self, if_true] at h
            cases h
          · simp only [hc, if_false] at h
            by_cases hb : budget = 0
            · simp [hb] at h
            · simp only [hb, if_false] at h
              by_cases ht : t = []
              · simp [ht] at h
              · simp only [ht, if_false] at h
                cases hp : parentWalk root dp (budget - 1) dir (split t) with
                | error e => rw [hp] at h; cases h
                | ok r =>
                  rw [hp] at h
                  exact ih _ _ _ _ _ _ _ _ h

/-- Where a resolution found nothing and a file was put since, it finds the file. -/
theorem lastWalk_inserted_missing (root root2 : List (GoString × Node))
    (hk : ∀ q k, kindAt root q = some k → kindAt root2 q = some k) :
    ∀ (depth budget : Nat) (dir : Loc) (last : Last) (slash fl : Bool)
      (d : Loc) (n : GoString) (i : Nat),
      lastWalk root depth budget dir last slash fl = .ok (.missing d n false) →
      kindAt root2 (d ++ [n]) = some (.file i) →
        lastWalk root2 depth budget dir last slash fl = .ok (.here (d ++ [n])) := by
  intro depth
  induction depth with
  | zero =>
    intro budget dir last slash fl d n i h h2
    cases last with
    | dot => simp [lastWalk] at h
    | dotdot => simp [lastWalk] at h
    | root => simp [lastWalk] at h
    | norm name =>
      simp only [lastWalk] at h ⊢
      cases hkk : kindAt root (dir ++ [name]) with
      | none =>
        rw [hkk] at h
        simp only at h
        split_ifs at h with hd
        injection h with h
        injection h with e1 e2 e3
        subst e1; subst e2; subst e3
        rw [h2]
        simp
      | some k =>
        rw [hkk] at h
        cases k with
        | file i =>
          simp only at h
          split_ifs at h
          all_goals cases h
        | dir => cases h
        | symlink t =>
          simp only at h
          split_ifs at h
          all_goals cases h
  | succ dp ih =>
    intro budget dir last slash fl d n i h h2
    cases last with
    | dot => simp [lastWalk] at h
    | dotdot => simp [lastWalk] at h
    | root => simp [lastWalk] at h
    | norm name =>
      simp only [lastWalk] at h ⊢
      cases hkk : kindAt root (dir ++ [name]) with
      | none =>
        rw [hkk] at h
        simp only at h
        split_ifs at h with hd
        injection h with h
        injection h with e1 e2 e3
        subst e1; subst e2; subst e3
        rw [h2]
        simp
      | some k =>
        rw [hkk] at h
        rw [hk _ _ hkk]
        cases k with
        | file i =>
          simp only at h
          split_ifs at h
          all_goals cases h
        | dir => cases h
        | symlink t =>
          simp only at h ⊢
          by_cases hc : fl = false ∧ slash = false
          · simp only [hc, and_self, if_true] at h
            cases h
          · simp only [hc, if_false] at h ⊢
            by_cases hb : budget = 0
            · simp [hb] at h
            · simp only [hb, if_false] at h ⊢
              by_cases ht : t = []
              · simp [ht] at h
              · simp only [ht, if_false] at h ⊢
                cases hp : parentWalk root dp (budget - 1) dir (split t) with
                | error e => rw [hp] at h; cases h
                | ok r =>
                  rw [hp] at h
                  have hp2 : parentWalk root2 dp (budget - 1) dir (split t) = .ok r :=
                    walkDirs_inserted root root2 hk dp _ _ _ r hp
                  rw [hp2]
                  exact ih _ _ _ _ _ _ _ _ h h2

end Os

end FileExplorer

namespace FileExplorer

/-! ## The calls of package os: what they do to the tree -/

namespace Os

theorem resolve_of_parentOf (fs : FS) (p : GoString) (d : Loc) (l : Last) (s fl : Bool)
    (h : parentOf fs p = .ok (d, l, s)) :
    ∃ b, resolve fs p fl = lastWalk fs.root maxSymlinks b d l s fl := by
  unfold parentOf at h
  unfold resolve
  by_cases hp : p = []
  · simp [hp] at h
  · simp only [hp, if_false] at h ⊢
    cases hw : parentWalk fs.root maxSymlinks maxSymlinks fs.cwd (split p) with
    | error e => rw [hw] at h; cases h
    | ok r =>
      obtain ⟨d2, b⟩ := r
      rw [hw] at h
      simp only [Except.ok.injEq, Prod.mk.injEq] at h
      obtain ⟨h1, h2, h3⟩ := h
      subst h1; subst h2; subst h3
      exact ⟨b, rfl⟩

theorem resolve_of_parentOf_error (fs : FS) (p : GoString) (e : Errno) (fl : Bool)
    (h : parentOf fs p = .error e) : resolve fs p fl = .error e := by
  unfold parentOf at h
  unfold resolve
  by_cases hp : p = []
  · simpa [hp] using h
  · simp only [hp, if_false] at h ⊢
    cases hw : parentWalk fs.root maxSymlinks maxSymlinks fs.cwd (split p) with
    | error e2 => rw [hw] at h; simpa using h
    | ok r =>
      obtain ⟨d2, b⟩ := r
      rw [hw] at h
      cases h

/-- After the entry at `loc` and all below it went, the directory of the last element
of a path is found as before, or an element on the way is not there. -/
theorem parentOf_removed (fs fs2 : FS) (loc : Loc) (hc : fs2.cwd = fs.cwd)
    (h1 : ∀ q, ¬ (loc <+: q) → kindAt fs2.root q = kindAt fs.root q)
    (h2 : ∀ q, loc <+: q → kindAt fs2.root q = none) (p : GoString) :
    parentOf fs2 p = parentOf fs p ∨ parentOf fs2 p = .error .ENOENT := by
  unfold parentOf
  by_cases hp : p = []
  · left; simp [hp]
  · simp only [hp, if_false, parentWalk, hc]
    rcases walkDirs_removed fs.root fs2.root loc h1 h2 maxSymlinks maxSymlinks
      (if (split p).rooted then [] else fs.cwd) (split p).before with h | h
    · left; rw [h]
    · right; rw [h]

/-- The entry a path names, seen by `Lstat`, when its last element is a name. -/
theorem Lstat_of_entry (fs : FS) (p : GoString) (d : Loc) (n : GoString) (s : Bool)
    (node : Node) (hp : parentOf fs p = .ok (d, .norm n, s))
    (hn : nodeAt fs.root (d ++ [n]) = some node) (hc : node.kind = .dir ∨ s = false) :
    Lstat fs p = .ok (d ++ [n], node) := by
  obtain ⟨b, hb⟩ := resolve_of_parentOf fs p d (.norm n) s false hp
  unfold Lstat
  rw [hb]
  simp only [lastWalk, kindAt_of_nodeAt _ _ _ hn]
  cases node with
  | file i =>
    rcases hc with hc | hc
    · cases hc
    · subst hc
      simp [Node.kind, entryAt, hn]
  | symlink t =>
    rcases hc with hc | hc
    · cases hc
    · subst hc
      simp [Node.kind, entryAt, hn]
  | dir es => simp [Node.kind, entryAt, hn]

/-- A path is gone: an element on the way to its last one is not there, or the last
one is a name under which nothing is. -/
theorem Lstat_of_gone (fs : FS) (p : GoString)
    (h : parentOf fs p = .error .ENOENT ∨
      ∃ d n s, parentOf fs p = .ok (d, .norm n, s) ∧ kindAt fs.root (d ++ [n]) = none) :
    Lstat fs p = .error .ENOENT := by
  rcases h with h | ⟨d, n, s, h, hk⟩
  · unfold Lstat
    rw [resolve_of_parentOf_error fs p _ false h]
  · obtain ⟨b, hb⟩ := resolve_of_parentOf fs p d (.norm n) s false h
    unfold Lstat
    rw [hb]
    simp only [lastWalk, hk]
    split_ifs <;> rfl

theorem Remove_of_gone (fs : FS) (p : GoString)
    (h : parentOf fs p = .error .ENOENT ∨
      ∃ d n s, parentOf fs p = .ok (d, .norm n, s) ∧ kindAt fs.root (d ++ [n]) = none) :
    Remove fs p = (some (.host .ENOENT), fs) := by
  rcases h with h | ⟨d, n, s, h, hk⟩
  · simp [Remove, unlink, rmdir, h]
  · have hn : nodeAt fs.root (d ++ [n]) = none := (kindAt_eq_none_iff _ _).mp hk
    simp [Remove, unlink, rmdir, h, hk, hn]

/-- After the entry a path named was removed, the path is gone. -/
theorem gone_after_remove (fs : FS) (p : GoString) (d : Loc) (n : GoString) (s : Bool)
    (hp : parentOf fs p = .ok (d, .norm n, s)) :
    parentOf { fs with root := put fs.root (d ++ [n]) none } p = .error .ENOENT ∨
      ∃ d2 n2 s2,
        parentOf { fs with root := put fs.root (d ++ [n]) none } p = .ok (d2, .norm n2, s2) ∧
        kindAt (put fs.root (d ++ [n]) none) (d2 ++ [n2]) = none := by
  have hne : d ++ [n] ≠ [] := by simp
  rcases parentOf_removed fs { fs with root := put fs.root (d ++ [n]) none } (d ++ [n]) rfl
    (fun q hq => kindAt_put_other none _ _ q hq)
    (fun q hq => kindAt_put_none_below _ _ q hne hq) p with h | h
  · right
    exact ⟨d, n, s, h.trans hp, kindAt_put_none_below _ _ _ hne (List.prefix_refl _)⟩
  · left
    exact h

theorem kind_of_kindAt (root : List (GoString × Node)) (loc : Loc) (k : Kind)
    (h : kindAt root loc = some k) : ∃ node, nodeAt root loc = some node ∧ node.kind = k := by
  unfold kindAt at h
  cases hn : nodeAt root loc with
  | none => rw [hn] at h; cases h
  | some node =>
    rw [hn] at h
    exact ⟨node, rfl, by simpa using h⟩

/-- What `os.Remove` did when it returned nil. -/
theorem Remove_ok_spec (fs fs2 : FS) (p : GoString) (h : Remove fs p = (none, fs2)) :
    ∃ d n s node, parentOf fs p = .ok (d, .norm n, s) ∧
      nodeAt fs.root (d ++ [n]) = some node ∧
      (node = .dir [] ∨ (node.kind ≠ .dir ∧ s = false)) ∧
      fs2 = { fs with root := put fs.root (d ++ [n]) none } := by
  unfold Remove at h
  cases hu : unlink fs p with
  | ok fs3 =>
    rw [hu] at h
    simp only [Prod.mk.injEq, true_and] at h
    subst h
    unfold unlink at hu
    cases hp : parentOf fs p with
    | error e => rw [hp] at hu; cases hu
    | ok r =>
      obtain ⟨d, l, s⟩ := r
      rw [hp] at hu
      cases l with
      | dot => cases hu
      | dotdot => cases hu
      | root => cases hu
      | norm n =>
        simp only at hu
        cases hk : kindAt fs.root (d ++ [n]) with
        | none => rw [hk] at hu; cases hu
        | some k =>
          rw [hk] at hu
          obtain ⟨node, hn, hnk⟩ := kind_of_kindAt _ _ _ hk
          cases k with
          | dir => cases hu
          | file i =>
            simp only at hu
            cases s with
            | true => simp at hu
            | false =>
              simp only [Bool.false_eq_true, if_false, Except.ok.injEq] at hu
              exact ⟨d, n, false, node, rfl, hn, Or.inr ⟨by rw [hnk]; simp, rfl⟩, hu.symm⟩
          | symlink t =>
            simp only at hu
            cases s with
            | true => simp at hu
            | false =>
              simp only [Bool.false_eq_true, if_false, Except.ok.injEq] at hu
              exact ⟨d, n, false, node, rfl, hn, Or.inr ⟨by rw [hnk]; simp, rfl⟩, hu.symm⟩
  | error e =>
    rw [hu] at h
    simp only at h
    cases hr : rmdir fs p with
    | error e1 => rw [hr] at h; simp at h
    | ok fs3 =>
      rw [hr] at h
      simp only [Prod.mk.injEq, true_and] at h
      subst h
      unfold rmdir at hr
      cases hp : parentOf fs p with
      | error e => rw [hp] at hr; cases hr
      | ok r =>
        obtain ⟨d, l, s⟩ := r
        rw [hp] at hr
        cases l with
        | dot => cases hr
        | dotdot => cases hr
        | root => cases hr
        | norm n =>
          simp only at hr
          cases hn : nodeAt fs.root (d ++ [n]) with
          | none => rw [hn] at hr; cases hr
          | some node =>
            rw [hn] at hr
            cases node with
            | file i => cases hr
            | symlink t => cases hr
            | dir es =>
              cases es with
              | cons x xs => cases hr
              | nil =>
                simp only [Except.ok.injEq] at hr
                exact ⟨d, n, s, .dir [], rfl, hn, Or.inl rfl, hr.symm⟩

/-- When `os.Remove` returns nil. -/
theorem Remove_of_entry (fs : FS) (p : GoString) (d : Loc) (n : GoString) (s : Bool)
    (node : Node) (hp : parentOf fs p = .ok (d, .norm n, s))
    (hn : nodeAt fs.root (d ++ [n]) = some node)
    (hc : node = .dir [] ∨ (node.kind ≠ .dir ∧ s = false)) :
    Remove fs p = (none, { fs with root := put fs.root (d ++ [n]) none }) := by
  have hk := kindAt_of_nodeAt _ _ _ hn
  cases node with
  | file i =>
    rcases hc with hc | ⟨_, hs⟩
    · cases hc
    · subst hs
      simp [Remove, unlink, hp, hk, Node.kind]
  | symlink t =>
    rcases hc with hc | ⟨_, hs⟩
    · cases hc
    · subst hs
      simp [Remove, unlink, hp, hk, Node.kind]
  | dir es =>
    rcases hc with hc | ⟨hc, _⟩
    · injection hc with hc
      subst hc
      simp [Remove, unlink, rmdir, hp, hk, hn, Node.kind]
    · exact absurd rfl hc

/-- A call of `os.Remove` that returns an error changes nothing. -/
theorem Remove_error_fs (fs : FS) (p : GoString) (h : (Remove fs p).1 ≠ none) :
    (Remove fs p).2 = fs := by
  unfold Remove at h ⊢
  cases hu : unlink fs p with
  | ok fs3 => rw [hu] at h; simp at h
  | error e =>
    rw [hu] at h
    simp only at h ⊢
    cases hr : rmdir fs p with
    | ok fs3 => rw [hr] at h; simp at h
    | error e1 => rfl

/-- What `removeAllFrom` did when it returned nil: nothing, on a path that is gone, or
it removed the entry the path names. -/
theorem removeAllFrom_ok_cases (fs fs2 : FS) (p : GoString)
    (h : removeAllFrom fs p = (none, fs2)) :
    (fs2 = fs ∧ (parentOf fs p = .error .ENOENT ∨
      ∃ d n s, parentOf fs p = .ok (d, .norm n, s) ∧ kindAt fs.root (d ++ [n]) = none)) ∨
    ∃ d n s, parentOf fs p = .ok (d, .norm n, s) ∧
      fs2 = { fs with root := put fs.root (d ++ [n]) none } := by
  unfold removeAllFrom at h
  cases hpo : parentOf fs p with
  | error e3 =>
    rw [hpo] at h
    simp only at h
    by_cases he : e3 = .ENOENT
    · simp only [he, if_true, Prod.mk.injEq, true_and] at h
      subst h
      left
      exact ⟨rfl, Or.inl (by rw [he])⟩
    · simp [he] at h
  | ok r =>
    obtain ⟨d, l, s⟩ := r
    rw [hpo] at h
    cases l with
    | dot => simp at h
    | dotdot => simp at h
    | root => simp at h
    | norm n =>
      simp only at h
      cases hk : kindAt fs.root (d ++ [n]) with
      | none =>
        rw [hk] at h
        simp only [Prod.mk.injEq, true_and] at h
        subst h
        left
        exact ⟨rfl, Or.inr ⟨d, n, s, rfl, hk⟩⟩
      | some k =>
        rw [hk] at h
        simp only [Prod.mk.injEq, true_and] at h
        subst h
        right
        exact ⟨d, n, s, rfl, rfl⟩

/-- What `os.Remove` found when it answered that nothing is there. -/
theorem Remove_ENOENT_gone (fs fs2 : FS) (p : GoString)
    (hr : Remove fs p = (some (.host .ENOENT), fs2)) :
    parentOf fs p = .error .ENOENT ∨
      ∃ d n s, parentOf fs p = .ok (d, .norm n, s) ∧ kindAt fs.root (d ++ [n]) = none := by
  unfold Remove at hr
  cases hu : unlink fs p with
  | ok fs4 => rw [hu] at hr; simp at hr
  | error eu =>
    rw [hu] at hr
    simp only at hr
    cases hrm : rmdir fs p with
    | ok fs4 => rw [hrm] at hr; simp at hr
    | error e1 =>
      rw [hrm] at hr
      simp only [ne_eq, ite_not, Prod.mk.injEq, Option.some.injEq, Error.host.injEq] at hr
      obtain ⟨hr, _⟩ := hr
      unfold unlink at hu
      unfold rmdir at hrm
      cases hpo : parentOf fs p with
      | error e3 =>
        rw [hpo] at hu hrm
        simp only [Except.error.injEq] at hu hrm
        subst hu; subst hrm
        left
        split_ifs at hr with h1
        · rw [hr]
        · rw [hr]
      | ok r =>
        obtain ⟨d, l, s⟩ := r
        rw [hpo] at hu hrm
        right
        cases l with
        | dot =>
          simp only [Except.error.injEq] at hu hrm
          subst hu; subst hrm
          simp at hr
        | dotdot =>
          simp only [Except.error.injEq] at hu hrm
          subst hu; subst hrm
          simp at hr
        | root =>
          simp only [Except.error.injEq] at hu hrm
          subst hu; subst hrm
          simp at hr
        | norm n =>
          simp only at hu hrm
          cases hn : nodeAt fs.root (d ++ [n]) with
          | none => exact ⟨d, n, s, rfl, (kindAt_eq_none_iff _ _).mpr hn⟩
          | some node =>
            exfalso
            have hk := kindAt_of_nodeAt _ _ _ hn
            rw [hn] at hrm
            rw [hk] at hu
            cases node with
            | file i =>
              simp only [Node.kind, Except.error.injEq] at hu hrm
              subst hrm
              simp only [if_true] at hr
              subst hr
              split_ifs at hu
              all_goals cases hu
            | symlink t =>
              simp only [Node.kind, Except.error.injEq] at hu hrm
              subst hrm
              simp only [if_true] at hr
              subst hr
              split_ifs at hu
              all_goals cases hu
            | dir es =>
              cases es with
              | nil => cases hrm
              | cons x xs =>
                simp only [Except.error.injEq] at hrm
                subst hrm
                simp at hr

/-- What `os.RemoveAll` did when it returned nil: nothing, on a path that is empty or
gone, or it removed the entry the path names. -/
theorem RemoveAll_ok_cases (fs fs2 : FS) (p : GoString) (h : RemoveAll fs p = (none, fs2)) :
    (p = [] ∧ fs2 = fs) ∨
    (p ≠ [] ∧ endsWithDot p = false ∧
      ((fs2 = fs ∧ (parentOf fs p = .error .ENOENT ∨
        ∃ d n s, parentOf fs p = .ok (d, .norm n, s) ∧ kindAt fs.root (d ++ [n]) = none)) ∨
      ∃ d n s, parentOf fs p = .ok (d, .norm n, s) ∧
        fs2 = { fs with root := put fs.root (d ++ [n]) none })) := by
  unfold RemoveAll at h
  by_cases hp : p = []
  · left
    simp only [hp, if_true, Prod.mk.injEq, true_and] at h
    exact ⟨hp, h.symm⟩
  · right
    simp only [hp, if_false] at h
    cases hd : endsWithDot p with
    | true => rw [hd] at h; simp at h
    | false =>
      rw [hd] at h
      simp only [Bool.false_eq_true, if_false] at h
      refine ⟨hp, rfl, ?_⟩
      cases hr : Remove fs p with
      | mk err fs3 =>
        rw [hr] at h
        cases err with
        | none =>
          simp only [Prod.mk.injEq, true_and] at h
          subst h
          obtain ⟨d, n, s, node, h1, _, _, h4⟩ := Remove_ok_spec fs fs3 p hr
          right
          exact ⟨d, n, s, h1, h4⟩
        | some e =>
          cases e with
          | host e2 =>
            by_cases he : e2 = .ENOENT
            · subst he
              simp only [Prod.mk.injEq, true_and] at h
              subst h
              left
              exact ⟨rfl, Remove_ENOENT_gone fs fs3 p hr⟩
            · cases e2 <;> first | exact absurd rfl he | exact removeAllFrom_ok_cases fs fs2 p h
          | SkipDir => exact removeAllFrom_ok_cases fs fs2 p h
          | SkipAll => exact removeAllFrom_ok_cases fs fs2 p h
          | ErrSyntax => exact removeAllFrom_ok_cases fs fs2 p h
          | ErrRange => exact removeAllFrom_ok_cases fs fs2 p h

/-- What `os.RemoveAll` leaves when it returned nil: the path is gone. -/
theorem RemoveAll_ok_gone (fs fs2 : FS) (p : GoString) (hp : p ≠ [])
    (h : RemoveAll fs p = (none, fs2)) :
    endsWithDot p = false ∧
      (parentOf fs2 p = .error .ENOENT ∨
        ∃ d n s, parentOf fs2 p = .ok (d, .norm n, s) ∧ kindAt fs2.root (d ++ [n]) = none) := by
  rcases RemoveAll_ok_cases fs fs2 p h with ⟨h1, _⟩ | ⟨_, hd, h2⟩
  · exact absurd h1 hp
  · refine ⟨hd, ?_⟩
    rcases h2 with ⟨h3, h4⟩ | ⟨d, n, s, h3, h4⟩
    · subst h3
      exact h4
    · subst h4
      exact gone_after_remove fs p d n s h3

/-- A call of `os.RemoveAll` on a path that is gone returns nil and changes nothing. -/
theorem RemoveAll_of_gone (fs : FS) (p : GoString) (hd : endsWithDot p = false)
    (h : parentOf fs p = .error .ENOENT ∨
      ∃ d n s, parentOf fs p = .ok (d, .norm n, s) ∧ kindAt fs.root (d ++ [n]) = none) :
    RemoveAll fs p = (none, fs) := by
  unfold RemoveAll
  by_cases hp : p = []
  · simp [hp]
  · simp only [hp, if_false, hd, Bool.false_eq_true, Remove_of_gone fs p h]

/-- A call of `os.RemoveAll` returns nil for a path that does not end in `.` and that
`Lstat` reports as not there. -/
theorem RemoveAll_of_ENOENT (fs : FS) (p : GoString) (hd : endsWithDot p = false)
    (h : Lstat fs p = .error .ENOENT) : (RemoveAll fs p).1 = none := by
  unfold RemoveAll
  by_cases hp : p = []
  · simp [hp]
  · simp only [hp, if_false, hd, Bool.false_eq_true]
    have hfall : (removeAllFrom fs p).1 = none := by
      unfold removeAllFrom
      cases hpo : parentOf fs p with
      | error e =>
        have := resolve_of_parentOf_error fs p e false hpo
        unfold Lstat at h
        rw [this] at h
        simp only [Except.error.injEq] at h
        simp [h]
      | ok r =>
        obtain ⟨d, l, s⟩ := r
        obtain ⟨b, hb⟩ := resolve_of_parentOf fs p d l s false hpo
        unfold Lstat at h
        rw [hb] at h
        cases l with
        | dot => simp [lastWalk] at h
        | dotdot => simp [lastWalk] at h
        | root => simp [lastWalk] at h
        | norm n =>
          simp only
          cases kindAt fs.root (d ++ [n]) <;> rfl
    cases hr : Remove fs p with
    | mk err fs3 =>
      cases err with
      | none => rfl
      | some e =>
        cases e with
        | host e2 =>
          cases e2 <;> first | rfl | exact hfall
        | SkipDir => exact hfall
        | SkipAll => exact hfall
        | ErrSyntax => exact hfall
        | ErrRange => exact hfall

end Os

theorem DeleteFile_Execute_err (df : DeleteFile) (fs : FS) :
    (df.Execute fs).err = (deleteFile fs df.Path df.Recursive).1 := by
  unfold DeleteFile.Execute
  cases h : (deleteFile fs df.Path df.Recursive).1 <;> simp [h]

theorem DeleteFile_Execute_fs (df : DeleteFile) (fs : FS) :
    (df.Execute fs).fs = (deleteFile fs df.Path df.Recursive).2 := by
  unfold DeleteFile.Execute
  cases h : (deleteFile fs df.Path df.Recursive).1 <;> simp [h]

theorem CopyFile_Execute_err (cf : CopyFile) (fs : FS) :
    (cf.Execute fs).err = (copyFile fs cf.Source cf.Destination).1 := by
  unfold CopyFile.Execute
  cases h : (copyFile fs cf.Source cf.Destination).1 <;> simp [h]

theorem CopyFile_Execute_fs (cf : CopyFile) (fs : FS) :
    (cf.Execute fs).fs = (copyFile fs cf.Source cf.Destination).2 := by
  unfold CopyFile.Execute
  cases h : (copyFile fs cf.Source cf.Destination).1 <;> simp [h]

theorem MoveFile_Execute_err (mf : MoveFile) (fs : FS) :
    (mf.Execute fs).err = (moveFile fs mf.Source mf.Destination).1 := by
  unfold MoveFile.Execute
  cases h : (moveFile fs mf.Source mf.Destination).1 <;> simp [h]

theorem MoveFile_Execute_fs (mf : MoveFile) (fs : FS) :
    (mf.Execute fs).fs = (moveFile fs mf.Source mf.Destination).2 := by
  unfold MoveFile.Execute
  cases h : (moveFile fs mf.Source mf.Destination).1 <;> simp [h]

end FileExplorer

namespace FileExplorer

namespace Os

/-- What the system call `rename` did when it succeeded. -/
theorem renameCall_ok_spec (fs fs2 : FS) (src dst : GoString)
    (h : renameCall fs src dst = .ok fs2) :
    ∃ d1 n1 s1 d2 n2 s2 node1,
      parentOf fs src = .ok (d1, .norm n1, s1) ∧ parentOf fs dst = .ok (d2, .norm n2, s2) ∧
      nodeAt fs.root (d1 ++ [n1]) = some node1 ∧
      (node1.kind = .dir ∨ (s1 = false ∧ s2 = false)) ∧
      ¬ ((d1 ++ [n1]) <+: d2) ∧ kindAt fs.root d2 = some .dir ∧ ¬ ((d2 ++ [n2]) <+: d1) ∧
      ((∃ node2, nodeAt fs.root (d2 ++ [n2]) = some node2 ∧
          fileId (d1 ++ [n1]) node1 = fileId (d2 ++ [n2]) node2 ∧ fs2 = fs) ∨
        ((∀ node2, nodeAt fs.root (d2 ++ [n2]) = some node2 →
            fileId (d1 ++ [n1]) node1 ≠ fileId (d2 ++ [n2]) node2) ∧
          fs2 = { fs with
            root := put (put fs.root (d1 ++ [n1]) none) (d2 ++ [n2]) (some node1)
            cwd := movedCwd (d1 ++ [n1]) (d2 ++ [n2]) fs.cwd })) := by
  unfold renameCall at h
  cases hp1 : parentOf fs src with
  | error e => rw [hp1] at h; cases h
  | ok r1 =>
    obtain ⟨d1, l1, s1⟩ := r1
    rw [hp1] at h
    simp only at h
    cases hp2 : parentOf fs dst with
    | error e => rw [hp2] at h; cases h
    | ok r2 =>
      obtain ⟨d2, l2, s2⟩ := r2
      rw [hp2] at h
      simp only at h
      cases l1 with
      | dot => cases h
      | dotdot => cases h
      | root => cases h
      | norm n1 =>
        cases l2 with
        | dot => cases h
        | dotdot => cases h
        | root => cases h
        | norm n2 =>
          simp only at h
          cases hn1 : nodeAt fs.root (d1 ++ [n1]) with
          | none => rw [hn1] at h; cases h
          | some node1 =>
            rw [hn1] at h
            simp only at h
            by_cases c1 : node1.kind ≠ .dir ∧ (s1 = true ∨ s2 = true)
            · rw [if_pos c1] at h; cases h
            · rw [if_neg c1] at h
              by_cases c2 : (d1 ++ [n1]) <+: d2
              · rw [if_pos c2] at h; cases h
              · rw [if_neg c2] at h
                by_cases c3 : kindAt fs.root d2 ≠ some .dir
                · rw [if_pos c3] at h; cases h
                · rw [if_neg c3] at h
                  by_cases c4 : (d2 ++ [n2]) <+: d1
                  · rw [if_pos c4] at h; cases h
                  · rw [if_neg c4] at h
                    have hs : node1.kind = .dir ∨ (s1 = false ∧ s2 = false) := by
                      by_cases hk : node1.kind = .dir
                      · exact Or.inl hk
                      · right
                        cases s1 <;> cases s2 <;> simp_all
                    refine ⟨d1, n1, s1, d2, n2, s2, node1, rfl, rfl, hn1, hs, c2,
                      not_not.mp c3, c4, ?_⟩
                    cases hn2 : nodeAt fs.root (d2 ++ [n2]) with
                    | none =>
                      rw [hn2] at h
                      simp only [Except.ok.injEq] at h
                      right
                      exact ⟨fun node2 hh => (nomatch hh), h.symm⟩
                    | some node2 =>
                      rw [hn2] at h
                      simp only at h
                      by_cases c5 : fileId (d1 ++ [n1]) node1 = fileId (d2 ++ [n2]) node2
                      · rw [if_pos c5] at h
                        simp only [Except.ok.injEq] at h
                        left
                        exact ⟨node2, rfl, c5, h.symm⟩
                      · rw [if_neg c5] at h
                        right
                        have c6 : ∀ node3, some node2 = some node3 →
                            fileId (d1 ++ [n1]) node1 ≠ fileId (d2 ++ [n2]) node3 := by
                          intro node3 hh
                          simp only [Option.some.injEq] at hh
                          subst hh
                          exact c5
                        refine ⟨c6, ?_⟩
                        cases node1 with
                        | file i =>
                          cases node2 with
                          | file j => simpa using h.symm
                          | symlink t => simpa using h.symm
                          | dir es => cases h
                        | symlink x =>
                          cases node2 with
                          | file j => simpa using h.symm
                          | symlink t => simpa using h.symm
                          | dir es => cases h
                        | dir es1 =>
                          cases node2 with
                          | file j => cases h
                          | symlink t => cases h
                          | dir es =>
                            cases es with
                            | nil => simpa using h.symm
                            | cons y ys => cases h

/-- A call of `os.Rename` that returned nil made the system call, which succeeded. -/
theorem Rename_ok_call (fs fs2 : FS) (src dst : GoString)
    (h : Rename fs src dst = (none, fs2)) : renameCall fs src dst = .ok fs2 := by
  have hcall : (match renameCall fs src dst with
      | .error e => ((some (.host e) : Option Error), fs)
      | .ok fs3 => (none, fs3)) = (none, fs2) → renameCall fs src dst = .ok fs2 := by
    intro hc
    cases hr : renameCall fs src dst with
    | error e => rw [hr] at hc; simp at hc
    | ok fs3 =>
      rw [hr] at hc
      simp only [Prod.mk.injEq, true_and] at hc
      rw [hc]
  unfold Rename at h
  simp only at h
  cases hl : Lstat fs dst with
  | error e =>
    rw [hl] at h
    exact hcall h
  | ok r =>
    obtain ⟨locN, nodeN⟩ := r
    rw [hl] at h
    cases nodeN with
    | file i => exact hcall h
    | symlink t => exact hcall h
    | dir es =>
      simp only at h
      cases hl2 : Lstat fs src with
      | error e => rw [hl2] at h; simp at h
      | ok r2 =>
        obtain ⟨locO, nodeO⟩ := r2
        rw [hl2] at h
        simp only at h
        split_ifs at h
        · simp at h
        · exact hcall h

end Os

end FileExplorer

namespace FileExplorer

namespace Os

/-- A resolution that found an entry finds it after entries were added. -/
theorem resolve_inserted_here (fs fs2 : FS) (hc : fs2.cwd = fs.cwd)
    (hk : ∀ q k, kindAt fs.root q = some k → kindAt fs2.root q = some k)
    (p : GoString) (fl : Bool) (loc : Loc) (h : resolve fs p fl = .ok (.here loc)) :
    resolve fs2 p fl = .ok (.here loc) := by
  unfold resolve at h ⊢
  by_cases hp : p = []
  · simp [hp] at h
  · simp only [hp, if_false] at h ⊢
    cases hw : parentWalk fs.root maxSymlinks maxSymlinks fs.cwd (split p) with
    | error e => rw [hw] at h; cases h
    | ok r =>
      rw [hw] at h
      have hw2 : parentWalk fs2.root maxSymlinks maxSymlinks fs2.cwd (split p) = .ok r := by
        rw [hc]
        exact walkDirs_inserted fs.root fs2.root hk _ _ _ _ r hw
      rw [hw2]
      exact lastWalk_inserted_here fs.root fs2.root hk _ _ _ _ _ _ _ h

/-- Where a resolution found nothing and a file was put since, it finds the file. -/
theorem resolve_inserted_missing (fs fs2 : FS) (hc : fs2.cwd = fs.cwd)
    (hk : ∀ q k, kindAt fs.root q = some k → kindAt fs2.root q = some k)
    (p : GoString) (fl : Bool) (d : Loc) (n : GoString) (i : Nat)
    (h : resolve fs p fl = .ok (.missing d n false))
    (h2 : kindAt fs2.root (d ++ [n]) = some (.file i)) :
    resolve fs2 p fl = .ok (.here (d ++ [n])) := by
  unfold resolve at h ⊢
  by_cases hp : p = []
  · simp [hp] at h
  · simp only [hp, if_false] at h ⊢
    cases hw : parentWalk fs.root maxSymlinks maxSymlinks fs.cwd (split p) with
    | error e => rw [hw] at h; cases h
    | ok r =>
      rw [hw] at h
      have hw2 : parentWalk fs2.root maxSymlinks maxSymlinks fs2.cwd (split p) = .ok r := by
        rw [hc]
        exact walkDirs_inserted fs.root fs2.root hk _ _ _ _ r hw
      rw [hw2]
      exact lastWalk_inserted_missing fs.root fs2.root hk _ _ _ _ _ _ _ _ i h h2

theorem resolve_missing_spec (fs : FS) (p : GoString) (fl : Bool) (d : Loc) (n : GoString)
    (s : Bool) (h : resolve fs p fl = .ok (.missing d n s)) :
    kindAt fs.root (d ++ [n]) = none ∧ kindAt fs.root d = some .dir := by
  unfold resolve at h
  by_cases hp : p = []
  · simp [hp] at h
  · simp only [hp, if_false] at h
    cases hw : parentWalk fs.root maxSymlinks maxSymlinks fs.cwd (split p) with
    | error e => rw [hw] at h; cases h
    | ok r =>
      rw [hw] at h
      exact lastWalk_missing_spec fs.root _ _ _ _ _ _ _ _ _ h

theorem nodeAt_file_of_kindAt (root : List (GoString × Node)) (loc : Loc) (i : Nat)
    (h : kindAt root loc = some (.file i)) : nodeAt root loc = some (.file i) := by
  obtain ⟨node, h1, h2⟩ := kind_of_kindAt root loc _ h
  cases node with
  | file j =>
    simp only [Node.kind, Kind.file.injEq] at h2
    rw [h1, h2]
  | symlink t => cases h2
  | dir es => cases h2

/-- What `Stat` found when it answered with a file. -/
theorem Stat_file_spec (fs : FS) (p : GoString) (loc : Loc) (i : Nat)
    (h : Stat fs p = .ok (loc, .file i)) :
    resolve fs p true = .ok (.here loc) ∧ nodeAt fs.root loc = some (.file i) := by
  unfold Stat at h
  cases hr : resolve fs p true with
  | error e => rw [hr] at h; cases h
  | ok f =>
    rw [hr] at h
    cases f with
    | missing d n s => cases h
    | here loc2 =>
      simp only [Except.ok.injEq, Prod.mk.injEq] at h
      obtain ⟨h1, h2⟩ := h
      subst h1
      refine ⟨rfl, ?_⟩
      unfold entryAt at h2
      cases hn : nodeAt fs.root loc2 with
      | none => rw [hn] at h2; cases h2
      | some node =>
        rw [hn] at h2
        simp only at h2
        rw [h2]

theorem Stat_of_file (fs : FS) (p : GoString) (loc : Loc) (i : Nat)
    (h1 : resolve fs p true = .ok (.here loc)) (h2 : nodeAt fs.root loc = some (.file i)) :
    Stat fs p = .ok (loc, .file i) := by
  simp [Stat, h1, entryAt, h2]

theorem ReadFile_of_file (fs : FS) (p : GoString) (loc : Loc) (i : Nat)
    (h1 : resolve fs p true = .ok (.here loc)) (h2 : nodeAt fs.root loc = some (.file i)) :
    ReadFile fs p = .ok (content fs.data i) := by
  simp [ReadFile, Stat_of_file fs p loc i h1 h2]

/-- Reading a file depends on the tree and the working directory through the
resolution only. -/
theorem ReadFile_congr (fs fs2 : FS) (p : GoString) (loc : Loc) (i : Nat)
    (hroot : fs2.root = fs.root) (hcwd : fs2.cwd = fs.cwd)
    (h1 : resolve fs p true = .ok (.here loc)) (h2 : nodeAt fs.root loc = some (.file i)) :
    ReadFile fs2 p = .ok (content fs2.data i) := by
  apply ReadFile_of_file fs2 p loc i
  · unfold resolve at h1 ⊢
    rw [hroot, hcwd]
    exact h1
  · rw [hroot]
    exact h2

/-- What `os.Open` found when it opened a file. -/
theorem Open_file_spec (fs : FS) (p : GoString) (i : Nat) (h : Open fs p = .ok (.file i)) :
    ∃ loc, Stat fs p = .ok (loc, .file i) := by
  unfold Open at h
  cases hs : Stat fs p with
  | error e => rw [hs] at h; cases h
  | ok r =>
    obtain ⟨loc, node⟩ := r
    rw [hs] at h
    cases node with
    | file j =>
      simp only [Except.ok.injEq, File.file.injEq] at h
      subst h
      exact ⟨loc, rfl⟩
    | symlink t => cases h
    | dir es => cases h

/-- What `os.Create` did when it succeeded: it cut an existing file to length zero, or
made a new, empty file where nothing was. -/
theorem Create_ok_spec (fs fs1 : FS) (p : GoString) (f : File)
    (h : Create fs p = .ok (f, fs1)) :
    (∃ loc j, resolve fs p true = .ok (.here loc) ∧ nodeAt fs.root loc = some (.file j) ∧
      f = .file j ∧ fs1 = { fs with data := setContent j [] fs.data }) ∨
    (∃ d n, resolve fs p true = .ok (.missing d n false) ∧ f = .file (fresh fs) ∧
      fs1 = { fs with
        root := put fs.root (d ++ [n]) (some (.file (fresh fs)))
        data := setContent (fresh fs) [] fs.data }) := by
  unfold Create at h
  cases hp : parentOf fs p with
  | error e => rw [hp] at h; cases h
  | ok r =>
    obtain ⟨d, l, s⟩ := r
    rw [hp] at h
    cases s with
    | true => cases h
    | false =>
      simp only at h
      cases hr : resolve fs p true with
      | error e => rw [hr] at h; cases h
      | ok fnd =>
        rw [hr] at h
        cases fnd with
        | here loc =>
          simp only at h
          cases hk : kindAt fs.root loc with
          | none => rw [hk] at h; cases h
          | some k =>
            rw [hk] at h
            cases k with
            | dir => cases h
            | symlink t => cases h
            | file j =>
              simp only [Except.ok.injEq, Prod.mk.injEq] at h
              left
              exact ⟨loc, j, rfl, nodeAt_file_of_kindAt _ _ _ hk, h.1.symm, h.2.symm⟩
        | missing d2 n2 s2 =>
          simp only at h
          cases s2 with
          | true => simp at h
          | false =>
            simp only [Bool.false_eq_true, if_false, Except.ok.injEq, Prod.mk.injEq] at h
            right
            exact ⟨d2, n2, rfl, h.1.symm, h.2.symm⟩

end Os

/-- What a copy did that returned nil, between paths that `Stat` does not report as
one file. -/
theorem copyFile_ok (fs fs2 : FS) (src dst : GoString)
    (hne : Os.statId fs src ≠ Os.statId fs dst)
    (h : copyFile fs src dst = (none, fs2)) :
    ∃ data, Os.ReadFile fs src = .ok data ∧ Os.ReadFile fs2 dst = .ok data ∧
      Os.ReadFile fs2 src = .ok data := by
  unfold copyFile at h
  cases ho : Os.Open fs src with
  | error e => rw [ho] at h; simp at h
  | ok sf =>
    rw [ho] at h
    simp only at h
    cases hc : Os.Create fs dst with
    | error e => rw [hc] at h; simp at h
    | ok r =>
      obtain ⟨df, fs1⟩ := r
      rw [hc] at h
      simp only at h
      unfold Io.Copy at h
      cases sf with
      | dir l => cases df <;> simp at h
      | file i =>
        cases df with
        | dir l => simp at h
        | file j =>
          simp only [Prod.mk.injEq, true_and] at h
          obtain ⟨locS, hstat⟩ := Os.Open_file_spec fs src i ho
          obtain ⟨hrs, hns⟩ := Os.Stat_file_spec fs src locS i hstat
          have hsrc : Os.ReadFile fs src = .ok (Os.content fs.data i) :=
            Os.ReadFile_of_file fs src locS i hrs hns
          have hidS : Os.statId fs src = some (.file i) := by
            simp [Os.statId, hstat, Os.fileId]
          refine ⟨Os.content fs.data i, hsrc, ?_, ?_⟩
          · rcases Os.Create_ok_spec fs fs1 dst _ hc with
              ⟨loc, j2, hr, hn, hf, hfs⟩ | ⟨d, n, hr, hf, hfs⟩
            · -- an existing file, which is not the source
              simp only [Os.File.file.injEq] at hf
              subst hf
              have hidD : Os.statId fs dst = some (.file j) := by
                simp [Os.statId, Os.Stat_of_file fs dst loc j hr hn, Os.fileId]
              have hij : i ≠ j := by
                intro hij
                apply hne
                rw [hidS, hidD, hij]
              subst hfs
              subst h
              refine Eq.trans (Os.ReadFile_congr fs _ dst loc j rfl rfl hr hn) ?_
              simp [Os.content_setContent, hij]
            · simp only [Os.File.file.injEq] at hf
              subst hf
              obtain ⟨hnone, hdir⟩ := Os.resolve_missing_spec fs dst true d n false hr
              have hnew : Os.nodeAt (Os.put fs.root (d ++ [n]) (some (.file (Os.fresh fs))))
                  (d ++ [n]) = some (.file (Os.fresh fs)) := by
                apply Os.nodeAt_put_same _ _ _ (by simp)
                rw [List.dropLast_concat]
                exact hdir
              have hij : i ≠ Os.fresh fs := Nat.ne_of_lt (Os.lt_fresh_of_nodeAt fs locS i hns)
              subst hfs
              subst h
              have hres := Os.resolve_inserted_missing fs
                { fs with
                  root := Os.put fs.root (d ++ [n]) (some (.file (Os.fresh fs)))
                  data := Os.setContent (Os.fresh fs) [] fs.data } rfl
                (Os.put_some_keeps fs.root (d ++ [n]) _ hnone) dst true d n (Os.fresh fs) hr
                (Os.kindAt_of_nodeAt _ _ _ hnew)
              refine Eq.trans (Os.ReadFile_congr _ _ dst (d ++ [n]) (Os.fresh fs) rfl rfl hres hnew) ?_
              simp [Os.content_setContent, hij]
          · rcases Os.Create_ok_spec fs fs1 dst _ hc with
              ⟨loc, j2, hr, hn, hf, hfs⟩ | ⟨d, n, hr, hf, hfs⟩
            · simp only [Os.File.file.injEq] at hf
              subst hf
              have hidD : Os.statId fs dst = some (.file j) := by
                simp [Os.statId, Os.Stat_of_file fs dst loc j hr hn, Os.fileId]
              have hij : i ≠ j := by
                intro hij
                apply hne
                rw [hidS, hidD, hij]
              subst hfs
              subst h
              refine Eq.trans (Os.ReadFile_congr fs _ src locS i rfl rfl hrs hns) ?_
              simp [Os.content_setContent, hij]
            · simp only [Os.File.file.injEq] at hf
              subst hf
              obtain ⟨hnone, hdir⟩ := Os.resolve_missing_spec fs dst true d n false hr
              have hij : i ≠ Os.fresh fs := Nat.ne_of_lt (Os.lt_fresh_of_nodeAt fs locS i hns)
              subst hfs
              subst h
              have hkeep := Os.put_some_keeps fs.root (d ++ [n]) (.file (Os.fresh fs)) hnone
              have hres := Os.resolve_inserted_here fs
                { fs with
                  root := Os.put fs.root (d ++ [n]) (some (.file (Os.fresh fs)))
                  data := Os.setContent (Os.fresh fs) [] fs.data } rfl
                hkeep src true locS hrs
              have hns2 := Os.nodeAt_file_of_kindAt _ _ _
                (hkeep locS _ (Os.kindAt_of_nodeAt _ _ _ hns))
              refine Eq.trans (Os.ReadFile_congr _ _ src locS i rfl rfl hres hns2) ?_
              simp [Os.content_setContent, hij]

end FileExplorer

namespace FileExplorer

/-! ## Delete -/

/-- C4 as stated fails: `e/.` names the empty directory `e`, which exists, and
`DeleteFile{Path: "e/.", Recursive: false}.Execute` returns the error `EINVAL` and
leaves the directory where it was. -/
theorem delete_nonrecursive_refuses_final_dot :
    Os.Lstat exampleHost (str "e/.") = .ok ([str "tmp", str "e"], .dir []) ∧
    (DeleteFile.Execute ⟨str "e/.", false⟩ exampleHost).err = some (.host .EINVAL) ∧
    Os.Lstat (DeleteFile.Execute ⟨str "e/.", false⟩ exampleHost).fs (str "e/.")
      = .ok ([str "tmp", str "e"], .dir []) :=
  ⟨rfl, rfl, rfl⟩

/-- C4, amended.  `DeleteFile{Path: p, Recursive: false}.Execute` returns an error when
`Lstat` fails for `p` and when `p` is a directory that is not empty, and whenever it
returns an error the file system is as before.  It returns no error exactly when the
last element of `p` is a name (not `.`, not `..`, not the root; `d` is the directory
the elements before it lead to, `s` says that separators trail it) and the entry of
that name is an empty directory, or is a file or symbolic link and no separator
trails.  Afterwards `Lstat` finds nothing at `p`, nothing is at the place of the
entry, every other place holds what it held, and the bytes of all files and the
working directory are as before. -/
theorem delete_nonrecursive_removes_exactly (fs : FS) (p : GoString) :
    (∀ e, Os.Lstat fs p = .error e → (DeleteFile.Execute ⟨p, false⟩ fs).err ≠ none) ∧
    (∀ loc x es, Os.Lstat fs p = .ok (loc, .dir (x :: es)) →
      (DeleteFile.Execute ⟨p, false⟩ fs).err ≠ none) ∧
    ((DeleteFile.Execute ⟨p, false⟩ fs).err ≠ none →
      (DeleteFile.Execute ⟨p, false⟩ fs).fs = fs) ∧
    ((DeleteFile.Execute ⟨p, false⟩ fs).err = none ↔
      ∃ d n s node, Os.parentOf fs p = .ok (d, .norm n, s) ∧
        Os.nodeAt fs.root (d ++ [n]) = some node ∧
        (node = .dir [] ∨ (node.kind ≠ .dir ∧ s = false))) ∧
    (∀ d n s, Os.parentOf fs p = .ok (d, .norm n, s) →
      (DeleteFile.Execute ⟨p, false⟩ fs).err = none →
      Os.Lstat (DeleteFile.Execute ⟨p, false⟩ fs).fs p = .error .ENOENT ∧
      Os.kindAt (DeleteFile.Execute ⟨p, false⟩ fs).fs.root (d ++ [n]) = none ∧
      (∀ q, q ≠ d ++ [n] →
        Os.kindAt (DeleteFile.Execute ⟨p, false⟩ fs).fs.root q = Os.kindAt fs.root q) ∧
      (DeleteFile.Execute ⟨p, false⟩ fs).fs.data = fs.data ∧
      (DeleteFile.Execute ⟨p, false⟩ fs).fs.cwd = fs.cwd) := by
  simp only [DeleteFile_Execute_err, DeleteFile_Execute_fs, deleteFile, Bool.false_eq_true,
    if_false]
  have hspec : (Os.Remove fs p).1 = none →
      ∃ d n s node, Os.parentOf fs p = .ok (d, .norm n, s) ∧
        Os.nodeAt fs.root (d ++ [n]) = some node ∧
        (node = .dir [] ∨ (node.kind ≠ .dir ∧ s = false)) ∧
        (Os.Remove fs p).2 = { fs with root := Os.put fs.root (d ++ [n]) none } ∧
        Os.Lstat fs p = .ok (d ++ [n], node) := by
    intro h
    have hpair : Os.Remove fs p = (none, (Os.Remove fs p).2) := by
      rw [← h]
    obtain ⟨d, n, s, node, h1, h2, h3, h4⟩ := Os.Remove_ok_spec fs _ p hpair
    refine ⟨d, n, s, node, h1, h2, h3, h4, ?_⟩
    apply Os.Lstat_of_entry fs p d n s node h1 h2
    rcases h3 with h3 | ⟨_, h3⟩
    · left; rw [h3]; rfl
    · right; exact h3
  refine ⟨?_, ?_, ?_, ?_, ?_⟩
  · intro e h herr
    obtain ⟨d, n, s, node, _, _, _, _, h5⟩ := hspec herr
    rw [h5] at h
    cases h
  · intro loc x es h herr
    obtain ⟨d, n, s, node, _, _, h3, _, h5⟩ := hspec herr
    rw [h5] at h
    simp only [Except.ok.injEq, Prod.mk.injEq] at h
    obtain ⟨_, h⟩ := h
    subst h
    rcases h3 with h3 | ⟨h3, _⟩
    · cases h3
    · exact h3 rfl
  · exact Os.Remove_error_fs fs p
  · constructor
    · intro h
      obtain ⟨d, n, s, node, h1, h2, h3, _, _⟩ := hspec h
      exact ⟨d, n, s, node, h1, h2, h3⟩
    · rintro ⟨d, n, s, node, h1, h2, h3⟩
      rw [Os.Remove_of_entry fs p d n s node h1 h2 h3]
  · intro d n s hp herr
    obtain ⟨d2, n2, s2, node, h1, h2, h3, h4, _⟩ := hspec herr
    rw [hp] at h1
    simp only [Except.ok.injEq, Prod.mk.injEq, Os.Last.norm.injEq] at h1
    obtain ⟨e1, e2, e3⟩ := h1
    subst e1; subst e2; subst e3
    rw [h4]
    have hne : d ++ [n] ≠ [] := by simp
    refine ⟨Os.Lstat_of_gone _ p (Os.gone_after_remove fs p d n s hp),
      Os.kindAt_put_none_below _ _ _ hne (List.prefix_refl _), ?_, rfl, rfl⟩
    intro q hq
    by_cases hpre : (d ++ [n]) <+: q
    · -- below a file, a link or an empty directory nothing was, and nothing is
      show Os.kindAt (Os.put fs.root (d ++ [n]) none) q = Os.kindAt fs.root q
      rw [Os.kindAt_put_none_below _ _ _ hne hpre]
      obtain ⟨t, rfl⟩ := hpre
      have ht : t ≠ [] := by
        intro ht
        apply hq
        rw [ht, List.append_nil]
      rcases h3 with h3 | ⟨h3, _⟩
      · subst h3
        exact (Os.kindAt_below_empty fs.root (d ++ [n]) t ht h2).symm
      · refine (Os.kindAt_below_none fs.root (d ++ [n]) t ht ?_).symm
        rw [Os.kindAt_of_nodeAt _ _ _ h2]
        simpa using h3
    · exact Os.kindAt_put_other none _ _ q hpre

/-- C4 amended, at instances: the file `a` is removed and its other name `b` stays;
the directory `d`, which is not empty, is refused. -/
theorem delete_nonrecursive_removes_exactly_witness :
    Os.Lstat (DeleteFile.Execute ⟨str "a", false⟩ exampleHost).fs (str "a") = .error .ENOENT ∧
    Os.kindAt (DeleteFile.Execute ⟨str "a", false⟩ exampleHost).fs.root [str "tmp", str "b"]
      = some (.file 1) ∧
    (DeleteFile.Execute ⟨str "d", false⟩ exampleHost).err ≠ none :=
  have h := (delete_nonrecursive_removes_exactly exampleHost (str "a")).2.2.2.2
    [str "tmp"] (str "a") false rfl rfl
  ⟨h.1, (h.2.2.1 [str "tmp", str "b"] (by decide)).trans rfl,
    (delete_nonrecursive_removes_exactly exampleHost (str "d")).2.1
      [str "tmp", str "d"] (str "x", .file 2) [] rfl⟩

/-- C5 as stated fails: `a` is a regular file, so nothing is at `a/b`, and
`DeleteFile{Path: "a/b", Recursive: true}.Execute` fails with `ENOTDIR`; nothing is at
`nope/.` either, and the call fails with `EINVAL`. -/
theorem delete_recursive_fails_on_absent :
    Os.Lstat exampleHost (str "a/b") = .error .ENOTDIR ∧
    (DeleteFile.Execute ⟨str "a/b", true⟩ exampleHost).err = some (.host .ENOTDIR) ∧
    Os.Lstat exampleHost (str "nope/.") = .error .ENOENT ∧
    (DeleteFile.Execute ⟨str "nope/.", true⟩ exampleHost).err = some (.host .EINVAL) :=
  ⟨rfl, rfl, rfl, rfl⟩

/-- C5, amended.  `DeleteFile{Path: p, Recursive: true}.Execute` returns no error for
a path `p` that does not end in a `.` element (the test `endsWithDot` of package `os`)
and for which `Lstat` answers that nothing is there (`ENOENT`).  After a call that
returned no error `Lstat` finds nothing at `p`; when the last element of `p` was a
name, nothing is at the place of that entry or anywhere below it; and a second call
on the state the first one left returns no error and leaves that state as it is. -/
theorem delete_recursive_absent_and_idempotent (fs : FS) (p : GoString) :
    (Os.endsWithDot p = false → Os.Lstat fs p = .error .ENOENT →
      (DeleteFile.Execute ⟨p, true⟩ fs).err = none) ∧
    ((DeleteFile.Execute ⟨p, true⟩ fs).err = none →
      Os.Lstat (DeleteFile.Execute ⟨p, true⟩ fs).fs p = .error .ENOENT ∧
      (∀ d n s, Os.parentOf fs p = .ok (d, .norm n, s) →
        ∀ q, Os.kindAt (DeleteFile.Execute ⟨p, true⟩ fs).fs.root (d ++ [n] ++ q) = none) ∧
      (DeleteFile.Execute ⟨p, true⟩ (DeleteFile.Execute ⟨p, true⟩ fs).fs).err = none ∧
      (DeleteFile.Execute ⟨p, true⟩ (DeleteFile.Execute ⟨p, true⟩ fs).fs).fs =
        (DeleteFile.Execute ⟨p, true⟩ fs).fs) := by
  simp only [DeleteFile_Execute_err, DeleteFile_Execute_fs, deleteFile, if_true]
  constructor
  · exact Os.RemoveAll_of_ENOENT fs p
  · intro h
    have hpair : Os.RemoveAll fs p = (none, (Os.RemoveAll fs p).2) := by
      rw [← h]
    refine ⟨?_, ?_, ?_⟩
    · by_cases hp : p = []
      · subst hp
        rfl
      · exact Os.Lstat_of_gone _ p (Os.RemoveAll_ok_gone fs _ p hp hpair).2
    · intro d n s hpo q
      have hne : d ++ [n] ≠ [] := by simp
      rcases Os.RemoveAll_ok_cases fs _ p hpair with ⟨h1, _⟩ | ⟨_, _, h2⟩
      · subst h1
        cases hpo
      · rcases h2 with ⟨h3, h4⟩ | ⟨d2, n2, s2, h3, h4⟩
        · rw [h3]
          rcases h4 with h4 | ⟨d2, n2, s2, h4, h5⟩
          · rw [hpo] at h4
            cases h4
          · rw [hpo] at h4
            simp only [Except.ok.injEq, Prod.mk.injEq, Os.Last.norm.injEq] at h4
            obtain ⟨e1, e2, _⟩ := h4
            subst e1; subst e2
            by_cases hq : q = []
            · subst hq
              rw [List.append_nil]
              exact h5
            · apply Os.kindAt_below_none fs.root (d ++ [n]) q hq
              rw [h5]
              simp
        · rw [hpo] at h3
          simp only [Except.ok.injEq, Prod.mk.injEq, Os.Last.norm.injEq] at h3
          obtain ⟨e1, e2, _⟩ := h3
          subst e1; subst e2
          rw [h4]
          exact Os.kindAt_put_none_below _ _ _ hne (List.prefix_append _ _)
    · by_cases hp : p = []
      · subst hp
        exact ⟨rfl, rfl⟩
      · obtain ⟨hd, hg⟩ := Os.RemoveAll_ok_gone fs _ p hp hpair
        rw [Os.RemoveAll_of_gone _ p hd hg]
        exact ⟨rfl, rfl⟩

/-- C5 amended, at instances: the directory `d` with the file `x` in it is removed, and
removed again; the path `gone`, at which nothing is, gives no error. -/
theorem delete_recursive_absent_and_idempotent_witness :
    Os.Lstat (DeleteFile.Execute ⟨str "d", true⟩ exampleHost).fs (str "d") = .error .ENOENT ∧
    Os.kindAt (DeleteFile.Execute ⟨str "d", true⟩ exampleHost).fs.root
      [str "tmp", str "d", str "x"] = none ∧
    (DeleteFile.Execute ⟨str "d", true⟩
      (DeleteFile.Execute ⟨str "d", true⟩ exampleHost).fs).err = none ∧
    (DeleteFile.Execute ⟨str "gone", true⟩ exampleHost).err = none :=
  have h := (delete_recursive_absent_and_idempotent exampleHost (str "d")).2 rfl
  ⟨h.1, h.2.1 [str "tmp"] (str "d") false rfl [str "x"], h.2.2.1,
    (delete_recursive_absent_and_idempotent exampleHost (str "gone")).1 rfl rfl⟩

end FileExplorer

namespace FileExplorer

/-! ## Move -/

/-- C3 as stated fails.  Moving the file `a` onto itself returns no error, and `a` is
still there; so it is after a move onto `b`, a second name of the same file.  And the
directory `d` moved to `d/../q` returns no error, yet nothing is at the path `d/../q`
afterwards: the directory went to `q`, and `d`, through which the path leads, is no
more. -/
theorem move_onto_itself_keeps_source :
    (MoveFile.Execute ⟨str "a", str "a", false⟩ exampleHost).err = none ∧
    Os.ReadFile (MoveFile.Execute ⟨str "a", str "a", false⟩ exampleHost).fs (str "a")
      = .ok (str "hello") ∧
    (MoveFile.Execute ⟨str "a", str "b", false⟩ exampleHost).err = none ∧
    Os.ReadFile (MoveFile.Execute ⟨str "a", str "b", false⟩ exampleHost).fs (str "a")
      = .ok (str "hello") ∧
    (MoveFile.Execute ⟨str "d", str "d/../q", false⟩ exampleHost).err = none ∧
    Os.Lstat (MoveFile.Execute ⟨str "d", str "d/../q", false⟩ exampleHost).fs (str "d/../q")
      = .error .ENOENT :=
  ⟨rfl, rfl, rfl, rfl, rfl, rfl⟩

/-- C3, amended.  For paths `src` and `dst` that `Lstat` does not report as one file
(`os.SameFile` on the two results: not one entry, not two names of one file; a `dst`
at which nothing is counts as different) and every file system in which
`MoveFile{Source: src, Destination: dst}.Execute` returns no error: the last elements
of both paths are names, in the directories `d1` and `d2` that the elements before
them lead to at the time of the call; afterwards nothing is in `d1` under the name of
`src`, and `d2` holds under the name of `dst` the entry that `src` named (the same
file, or the directory with all below it, or the symbolic link); the bytes of all
files are as before. -/
theorem move_between_entries (fs : FS) (src dst : GoString) (recursive : Bool)
    (hne : Os.lstatId fs src ≠ Os.lstatId fs dst)
    (h : (MoveFile.Execute ⟨src, dst, recursive⟩ fs).err = none) :
    ∃ d1 n1 s1 d2 n2 s2 node,
      Os.parentOf fs src = .ok (d1, .norm n1, s1) ∧
      Os.parentOf fs dst = .ok (d2, .norm n2, s2) ∧
      Os.nodeAt fs.root (d1 ++ [n1]) = some node ∧
      Os.nodeAt (MoveFile.Execute ⟨src, dst, recursive⟩ fs).fs.root (d1 ++ [n1]) = none ∧
      Os.nodeAt (MoveFile.Execute ⟨src, dst, recursive⟩ fs).fs.root (d2 ++ [n2]) = some node ∧
      (MoveFile.Execute ⟨src, dst, recursive⟩ fs).fs.data = fs.data := by
  simp only [MoveFile_Execute_err, MoveFile_Execute_fs, moveFile] at h ⊢
  have hpair : Os.Rename fs src dst = (none, (Os.Rename fs src dst).2) := by
    rw [← h]
  have hcall := Os.Rename_ok_call fs _ src dst hpair
  obtain ⟨d1, n1, s1, d2, n2, s2, node1, hp1, hp2, hn1, hs, c2, c3, c4, hcase⟩ :=
    Os.renameCall_ok_spec fs _ src dst hcall
  have hl1 : Os.Lstat fs src = .ok (d1 ++ [n1], node1) := by
    apply Os.Lstat_of_entry fs src d1 n1 s1 node1 hp1 hn1
    rcases hs with hs | ⟨hs, _⟩
    · exact Or.inl hs
    · exact Or.inr hs
  rcases hcase with ⟨node2, hn2, hid, _⟩ | ⟨hdiff, hfs⟩
  · -- one file under both names: excluded
    exfalso
    have hl2 : Os.Lstat fs dst = .ok (d2 ++ [n2], node2) := by
      apply Os.Lstat_of_entry fs dst d2 n2 s2 node2 hp2 hn2
      cases node2 with
      | dir es => left; rfl
      | file j =>
        right
        cases node1 with
        | file i =>
          rcases hs with hs | ⟨_, hs⟩
          · cases hs
          · exact hs
        | symlink t => simp [Os.fileId] at hid
        | dir es => simp [Os.fileId] at hid
      | symlink t =>
        right
        cases node1 with
        | file i => simp [Os.fileId] at hid
        | symlink t1 =>
          rcases hs with hs | ⟨_, hs⟩
          · cases hs
          · exact hs
        | dir es =>
          simp only [Os.fileId, Os.FileId.other.injEq] at hid
          rw [hid, hn2] at hn1
          cases hn1
    apply hne
    simp only [Os.lstatId, hl1, hl2, hid]
  · rw [hfs]
    have hne1 : d1 ++ [n1] ≠ [] := by simp
    have hne2 : d2 ++ [n2] ≠ [] := by simp
    have hnp : ¬ ((d2 ++ [n2]) <+: (d1 ++ [n1])) := by
      intro hp
      rcases List.prefix_concat_iff.mp hp with hp | hp
      · have hn2 : Os.nodeAt fs.root (d2 ++ [n2]) = some node1 := by rw [hp]; exact hn1
        apply hdiff node1 hn2
        rw [hp]
      · exact c4 hp
    refine ⟨d1, n1, s1, d2, n2, s2, node1, hp1, hp2, hn1, ?_, ?_, rfl⟩
    · apply (Os.kindAt_eq_none_iff _ _).mp
      show Os.kindAt (Os.put (Os.put fs.root (d1 ++ [n1]) none) (d2 ++ [n2]) (some node1))
        (d1 ++ [n1]) = none
      rw [Os.kindAt_put_other (some node1) (d2 ++ [n2]) _ (d1 ++ [n1]) hnp]
      exact Os.kindAt_put_none_below _ _ _ hne1 (List.prefix_refl _)
    · apply Os.nodeAt_put_same (some node1) (d2 ++ [n2]) _ hne2
      rw [List.dropLast_concat, Os.kindAt_put_other none (d1 ++ [n1]) fs.root d2 c2]
      exact c3

/-- C3 amended, at an instance: the file `a` is moved into the directory `d`, where it
is found as `d/a` with its bytes. -/
theorem move_between_entries_witness :
    Os.Lstat (MoveFile.Execute ⟨str "a", str "d/a", false⟩ exampleHost).fs (str "a")
      = .error .ENOENT ∧
    Os.ReadFile (MoveFile.Execute ⟨str "a", str "d/a", false⟩ exampleHost).fs (str "d/a")
      = .ok (str "hello") ∧
    ∃ d1 n1 s1 d2 n2 s2 node,
      Os.parentOf exampleHost (str "a") = .ok (d1, .norm n1, s1) ∧
      Os.parentOf exampleHost (str "d/a") = .ok (d2, .norm n2, s2) ∧
      Os.nodeAt exampleHost.root (d1 ++ [n1]) = some node ∧
      Os.nodeAt (MoveFile.Execute ⟨str "a", str "d/a", false⟩ exampleHost).fs.root
        (d1 ++ [n1]) = none ∧
      Os.nodeAt (MoveFile.Execute ⟨str "a", str "d/a", false⟩ exampleHost).fs.root
        (d2 ++ [n2]) = some node ∧
      (MoveFile.Execute ⟨str "a", str "d/a", false⟩ exampleHost).fs.data = exampleHost.data :=
  ⟨rfl, rfl, move_between_entries exampleHost (str "a") (str "d/a") false (by decide) rfl⟩

end FileExplorer

namespace FileExplorer

/-! ## Copy -/

/-- C2 as stated fails: copying the file `a` onto itself returns no error and leaves
`a` empty, its five bytes lost; so does a copy onto `d/../a`, another spelling of the
same entry, onto `b`, a second name of the same file, and onto `l`, a symbolic link
to it. -/
theorem copy_onto_itself_truncates :
    Os.ReadFile exampleHost (str "a") = .ok (str "hello") ∧
    (CopyFile.Execute ⟨str "a", str "a", false⟩ exampleHost).err = none ∧
    Os.ReadFile (CopyFile.Execute ⟨str "a", str "a", false⟩ exampleHost).fs (str "a")
      = .ok [] ∧
    (CopyFile.Execute ⟨str "a", str "d/../a", false⟩ exampleHost).err = none ∧
    Os.ReadFile (CopyFile.Execute ⟨str "a", str "d/../a", false⟩ exampleHost).fs (str "a")
      = .ok [] ∧
    (CopyFile.Execute ⟨str "a", str "b", false⟩ exampleHost).err = none ∧
    Os.ReadFile (CopyFile.Execute ⟨str "a", str "b", false⟩ exampleHost).fs (str "a")
      = .ok [] ∧
    (CopyFile.Execute ⟨str "a", str "l", false⟩ exampleHost).err = none ∧
    Os.ReadFile (CopyFile.Execute ⟨str "a", str "l", false⟩ exampleHost).fs (str "a")
      = .ok [] :=
  ⟨rfl, rfl, rfl, rfl, rfl, rfl, rfl, rfl, rfl⟩

/-- C2, amended.  For paths `src` and `dst` that `Stat` does not report as one file
(`os.SameFile` on the two results, symbolic links followed: not one entry under two
spellings, not two names of one file, no link to it; a `dst` at which nothing is
counts as different) and every file system in which
`CopyFile{Source: src, Destination: dst}.Execute` returns no error: `src` was a file,
afterwards a reader finds at `dst` the bytes `src` had before the call, and at `src`
those bytes still. -/
theorem copy_between_files (fs : FS) (src dst : GoString) (recursive : Bool)
    (hne : Os.statId fs src ≠ Os.statId fs dst)
    (h : (CopyFile.Execute ⟨src, dst, recursive⟩ fs).err = none) :
    ∃ data, Os.ReadFile fs src = .ok data ∧
      Os.ReadFile (CopyFile.Execute ⟨src, dst, recursive⟩ fs).fs dst = .ok data ∧
      Os.ReadFile (CopyFile.Execute ⟨src, dst, recursive⟩ fs).fs src = .ok data := by
  simp only [CopyFile_Execute_err, CopyFile_Execute_fs] at h ⊢
  have hpair : copyFile fs src dst = (none, (copyFile fs src dst).2) := by
    rw [← h]
  exact copyFile_ok fs _ src dst hne hpair

/-- C2 amended, at an instance: the file `a` copied to `c`, a name not in use. -/
theorem copy_between_files_witness :
    ∃ data, Os.ReadFile exampleHost (str "a") = .ok data ∧
      Os.ReadFile (CopyFile.Execute ⟨str "a", str "c", false⟩ exampleHost).fs (str "c")
        = .ok data ∧
      Os.ReadFile (CopyFile.Execute ⟨str "a", str "c", false⟩ exampleHost).fs (str "a")
        = .ok data :=
  copy_between_files exampleHost (str "a") (str "c") false (by decide) rfl

end FileExplorer

namespace FileExplorer

/-! ## List and Search: the walk -/

mutual
/-- A callback that always returns nil is called at every visit, and the walk returns
nil. -/
theorem walk_of_nil (fn : WalkFunc) (hfn : ∀ p i e, (fn p i e).2 = none) :
    ∀ (a : Answer) (path : GoString),
      Filepath.walk fn path a =
        ((visits path a).flatMap (fun v => (fn v.path v.info v.err).1), none)
  | .lstatFails e, path => by
    simp only [Filepath.walk, visits, List.flatMap_cons, List.flatMap_nil, List.append_nil]
    exact Prod.ext rfl (hfn _ _ _)
  | .entry info readErr children, path => by
    unfold Filepath.walk visits
    cases hI : info.IsDir with
    | false =>
      simp only [if_true, List.flatMap_cons, List.flatMap_nil, List.append_nil]
      exact Prod.ext rfl (hfn _ _ _)
    | true =>
      cases readErr with
      | some e =>
        simp only [Bool.true_eq_false, if_false, Option.isSome_some, true_or, if_true,
          Option.map_some', List.flatMap_cons, List.flatMap_nil, List.append_nil]
        exact Prod.ext rfl (hfn _ _ _)
      | none =>
        simp only [Bool.true_eq_false, if_false, Option.isSome_none, false_or, hfn,
          Option.map_none', List.flatMap_cons]
        rw [walkNames_of_nil fn hfn children path]
        simp
theorem walkNames_of_nil (fn : WalkFunc) (hfn : ∀ p i e, (fn p i e).2 = none) :
    ∀ (cs : List (GoString × Answer)) (path : GoString),
      Filepath.walkNames fn path cs =
        ((visitsNames path cs).flatMap (fun v => (fn v.path v.info v.err).1), none)
  | [], path => by simp [Filepath.walkNames, visitsNames]
  | (name, a) :: rest, path => by
    unfold Filepath.walkNames visitsNames
    rw [walk_of_nil fn hfn a (Filepath.Join path name), walkNames_of_nil fn hfn rest path]
    cases a <;> simp
end

theorem Walk_of_nil (fn : WalkFunc) (hfn : ∀ p i e, (fn p i e).2 = none) (a : Answer)
    (root : GoString) :
    Filepath.Walk a root fn =
      ((visits root a).flatMap (fun v => (fn v.path v.info v.err).1), none) := by
  unfold Filepath.Walk
  rw [walk_of_nil fn hfn a root]
  simp

mutual
/-- A walk hands over an error together with file info only for a directory. -/
theorem visits_err_dir :
    ∀ (a : Answer) (path : GoString) (v : Visit), v ∈ visits path a →
      ∀ info, v.info = some info → v.err ≠ none → info.IsDir = true
  | .lstatFails e, path, v, hv => by
    simp only [visits, List.mem_singleton] at hv
    subst hv
    intro info hi
    cases hi
  | .entry info readErr children, path, v, hv => by
    unfold visits at hv
    cases hI : info.IsDir with
    | false =>
      simp only [hI, if_true, List.mem_singleton] at hv
      subst hv
      intro i _ he
      exact absurd rfl he
    | true =>
      simp only [hI, Bool.true_eq_false, if_false] at hv
      cases readErr with
      | some e =>
        simp only [Option.isSome_some, if_true, List.mem_singleton] at hv
        subst hv
        intro i hi _
        injection hi with hi
        rw [← hi]; exact hI
      | none =>
        simp only [Option.isSome_none, Bool.false_eq_true, if_false, List.mem_cons] at hv
        rcases hv with hv | hv
        · subst hv
          intro i _ he
          exact absurd rfl he
        · exact visitsNames_err_dir children path v hv
theorem visitsNames_err_dir :
    ∀ (cs : List (GoString × Answer)) (path : GoString) (v : Visit), v ∈ visitsNames path cs →
      ∀ info, v.info = some info → v.err ≠ none → info.IsDir = true
  | [], path, v, hv => by simp [visitsNames] at hv
  | (name, a) :: rest, path, v, hv => by
    simp only [visitsNames, List.mem_append] at hv
    rcases hv with hv | hv
    · exact visits_err_dir a (Filepath.Join path name) v hv
    · exact visitsNames_err_dir rest path v hv
end

theorem listWalkFn_nil (p : GoString) (i : Option FileInfo) (e : Option Error) :
    (listWalkFn p i e).2 = none := by
  unfold listWalkFn
  cases e <;> rfl

theorem searchWalkFn_nil (U : UnicodeTables) (q : GoString) (p : GoString)
    (i : Option FileInfo) (e : Option Error) : (searchWalkFn U q p i e).2 = none := by
  unfold searchWalkFn
  cases e with
  | some e => rfl
  | none =>
    cases i with
    | none => rfl
    | some info => simp only; split <;> rfl

theorem ListFiles_Execute_eq (lf : ListFiles) (fs : FS) :
    lf.Execute fs =
      ⟨none, Line.listing lf.Path ::
        (visits lf.Path (Os.answer fs lf.Path)).flatMap
          (fun v => (listWalkFn v.path v.info v.err).1), fs⟩ := by
  unfold ListFiles.Execute
  rw [Walk_of_nil listWalkFn listWalkFn_nil]
  rfl

theorem SearchFiles_Execute_eq (U : UnicodeTables) (sf : SearchFiles) (fs : FS) :
    sf.Execute U fs =
      ⟨none, Line.searching sf.Query sf.Path ::
        (visits sf.Path (Os.answer fs sf.Path)).flatMap
          (fun v => (searchWalkFn U sf.Query v.path v.info v.err).1), fs⟩ := by
  unfold SearchFiles.Execute
  rw [Walk_of_nil (searchWalkFn U sf.Query) (searchWalkFn_nil U sf.Query)]
  rfl

/-- The lines the search callback prints for an entry it receives without an error. -/
theorem searchWalkFn_lines (U : UnicodeTables) (q : GoString) (p : GoString) (info : FileInfo) :
    (searchWalkFn U q p (some info) none).1 =
      if info.IsDir = false ∧ (q = [] ∨ containsIgnoreCase U info.Name q = true ∨
          containsIgnoreCase U (Filepath.Ext info.Name) q = true)
      then [Line.path p] else [] := by
  unfold searchWalkFn containsNameOrExtension
  simp only
  by_cases hd : info.IsDir = false <;> by_cases hq : q = [] <;>
    cases h1 : containsIgnoreCase U info.Name q <;>
    cases h2 : containsIgnoreCase U (Filepath.Ext info.Name) q <;>
    simp_all

/-- C1.  `SearchFiles.Execute` prints its status line and then, visit by visit, the
lines of its callback.  For every entry the walk visits (every call of the callback
that carries the entry's file info) and every query, the path of the entry is printed
if and only if the entry is not a directory and the query is empty, or the name
contains the query without regard to case, or the extension of the name does.  A
directory is never printed; a visit without file info (a failed `Lstat`) prints no
path. -/
theorem search_prints_matching_files (U : UnicodeTables) (query : GoString) :
    (∀ (path : GoString) (recursive : Bool) (fs : FS),
      (SearchFiles.Execute U ⟨path, query, recursive⟩ fs).out =
        Line.searching query path ::
          (visits path (Os.answer fs path)).flatMap
            (fun v => (searchWalkFn U query v.path v.info v.err).1)) ∧
    ∀ (a : Answer) (root : GoString) (v : Visit), v ∈ visits root a →
      (∀ info, v.info = some info →
        ((Line.path v.path ∈ (searchWalkFn U query v.path v.info v.err).1 ↔
          info.IsDir = false ∧ (query = [] ∨ containsIgnoreCase U info.Name query = true ∨
            containsIgnoreCase U (Filepath.Ext info.Name) query = true)) ∧
         (info.IsDir = true →
          Line.path v.path ∉ (searchWalkFn U query v.path v.info v.err).1))) ∧
      (v.info = none → Line.path v.path ∉ (searchWalkFn U query v.path v.info v.err).1) := by
  constructor
  · intro path recursive fs
    rw [SearchFiles_Execute_eq]
  · intro a root v hv
    have hiff : ∀ info, v.info = some info →
        (Line.path v.path ∈ (searchWalkFn U query v.path v.info v.err).1 ↔
          info.IsDir = false ∧ (query = [] ∨ containsIgnoreCase U info.Name query = true ∨
            containsIgnoreCase U (Filepath.Ext info.Name) query = true)) := by
      intro info hi
      cases he : v.err with
      | none =>
        rw [hi, searchWalkFn_lines]
        split
        · rename_i hc; simp [hc]
        · rename_i hc; simp [hc]
      | some e =>
        have hdir := visits_err_dir a root v hv info hi (by rw [he]; simp)
        simp [searchWalkFn, logError, hdir]
    refine ⟨fun info hi => ⟨hiff info hi, ?_⟩, ?_⟩
    · intro hdir hmem
      have := ((hiff info hi).mp hmem).1
      rw [hdir] at this
      cases this
    · intro hi
      rw [hi]
      cases he : v.err with
      | none => simp [searchWalkFn]
      | some e => simp [searchWalkFn, logError]

/-- C1, at the example of the specification: with the query `txt` the files `a.TXT`
and `report.txt` are printed, `image.png` is not. -/
theorem search_prints_matching_files_witness :
    (SearchFiles.Execute latin1Tables ⟨str "d", str "txt", false⟩ exampleTree).out =
      [Line.searching (str "txt") (str "d"), Line.path (str "d/a.TXT"),
        Line.path (str "d/report.txt")] ∧
    Line.path (str "d/a.TXT") ∈
      (searchWalkFn latin1Tables (str "txt") (str "d/a.TXT")
        (some ⟨str "a.TXT", false⟩) none).1 ∧
    Line.path (str "d/image.png") ∉
      (searchWalkFn latin1Tables (str "txt") (str "d/image.png")
        (some ⟨str "image.png", false⟩) none).1 :=
  ⟨by decide,
    (((search_prints_matching_files latin1Tables (str "txt")).2
      (Os.answer exampleTree (str "d")) (str "d")
      ⟨str "d/a.TXT", some ⟨str "a.TXT", false⟩, none⟩ (by decide)).1
      ⟨str "a.TXT", false⟩ rfl).1.mpr (by decide),
    fun h => absurd ((((search_prints_matching_files latin1Tables (str "txt")).2
      (Os.answer exampleTree (str "d")) (str "d")
      ⟨str "d/image.png", some ⟨str "image.png", false⟩, none⟩ (by decide)).1
      ⟨str "image.png", false⟩ rfl).1.mp h) (by decide)⟩

/-- C9.  The callbacks of List and Search return nil at every call.  So a walk over any
answers of the host (a missing root, a directory that cannot be read and a failed
`Lstat` included) calls them at every visit and returns nil; both `Execute` return
nil for every path, query and file system; the caller never logs an error of
`Execute`; and with an error the Search callback prints the same whatever the file
info is, which it does not read. -/
theorem list_and_search_return_nil (U : UnicodeTables) :
    (∀ p i e, (listWalkFn p i e).2 = none) ∧
    (∀ q p i e, (searchWalkFn U q p i e).2 = none) ∧
    (∀ a root, Filepath.Walk a root listWalkFn =
      ((visits root a).flatMap (fun v => (listWalkFn v.path v.info v.err).1), none)) ∧
    (∀ q a root, Filepath.Walk a root (searchWalkFn U q) =
      ((visits root a).flatMap (fun v => (searchWalkFn U q v.path v.info v.err).1), none)) ∧
    (∀ (lf : ListFiles) (fs : FS), (lf.Execute fs).err = none) ∧
    (∀ (sf : SearchFiles) (fs : FS), (sf.Execute U fs).err = none) ∧
    (∀ (w : World) (lf : ListFiles), w.report (lf.Execute w.fs) = w.apply (lf.Execute w.fs)) ∧
    (∀ (w : World) (sf : SearchFiles),
      w.report (sf.Execute U w.fs) = w.apply (sf.Execute U w.fs)) ∧
    (∀ q p i1 i2 e, searchWalkFn U q p i1 (some e) = searchWalkFn U q p i2 (some e)) := by
  refine ⟨listWalkFn_nil, searchWalkFn_nil U, Walk_of_nil _ listWalkFn_nil,
    fun q => Walk_of_nil _ (searchWalkFn_nil U q), ?_, ?_, ?_, ?_, ?_⟩
  · intro lf fs; rw [ListFiles_Execute_eq]
  · intro sf fs; rw [SearchFiles_Execute_eq]
  · intro w lf; rw [ListFiles_Execute_eq]; rfl
  · intro w sf; rw [SearchFiles_Execute_eq]; rfl
  · intro q p i1 i2 e; rfl

/-- C9, at the tests of the repository: on a directory with three files both return
nil. -/
theorem list_and_search_return_nil_witness :
    (ListFiles.Execute ⟨str "file_operator_test", false⟩ testTree).err = none ∧
    (SearchFiles.Execute latin1Tables ⟨str "file_operator_test", str "test", false⟩
      testTree).err = none ∧
    (ListFiles.Execute ⟨str "file_operator_test", false⟩ testTree).out =
      [Line.listing (str "file_operator_test"), Line.path (str "file_operator_test"),
        Line.path (str "file_operator_test/file1.txt"),
        Line.path (str "file_operator_test/file2.txt"),
        Line.path (str "file_operator_test/file3.txt")] :=
  ⟨(list_and_search_return_nil latin1Tables).2.2.2.2.1 _ _,
    (list_and_search_return_nil latin1Tables).2.2.2.2.2.1 _ _, by decide⟩

/-- C8.  The flag `Recursive` has no effect on List, Search, Copy and Move: with the
other fields and the file system fixed, `Execute` returns the same error, prints the
same lines and leaves the same file system for `true` and for `false`.  List and Search
visit the whole tree for either value. -/
theorem recursive_flag_without_effect (U : UnicodeTables) (fs : FS) (path src dst : GoString)
    (query : GoString) :
    ListFiles.Execute ⟨path, true⟩ fs = ListFiles.Execute ⟨path, false⟩ fs ∧
    SearchFiles.Execute U ⟨path, query, true⟩ fs = SearchFiles.Execute U ⟨path, query, false⟩ fs ∧
    CopyFile.Execute ⟨src, dst, true⟩ fs = CopyFile.Execute ⟨src, dst, false⟩ fs ∧
    MoveFile.Execute ⟨src, dst, true⟩ fs = MoveFile.Execute ⟨src, dst, false⟩ fs ∧
    (∀ recursive, (ListFiles.Execute ⟨path, recursive⟩ fs).out =
      Line.listing path :: (visits path (Os.answer fs path)).flatMap
        (fun v => (listWalkFn v.path v.info v.err).1)) ∧
    (∀ recursive, (SearchFiles.Execute U ⟨path, query, recursive⟩ fs).out =
      Line.searching query path :: (visits path (Os.answer fs path)).flatMap
        (fun v => (searchWalkFn U query v.path v.info v.err).1)) := by
  refine ⟨rfl, rfl, rfl, rfl, ?_, ?_⟩
  · intro r; rw [ListFiles_Execute_eq]
  · intro r; rw [SearchFiles_Execute_eq]

end FileExplorer

namespace FileExplorer

/-! ## The search match -/

/-- C10.  The match test of Search is one substring test on the name: for every name
and query, `query == "" || containsIgnoreCase(name, query) ||
containsIgnoreCase(Ext(name), query)` equals `containsIgnoreCase(name, query)`.  The
reasons: every string contains the empty string, and the lower-cased extension is a
suffix of the lower-cased name.  So the callback prints a file exactly when its name
contains the query. -/
theorem search_match_is_name_match (U : UnicodeTables) (name query : GoString) :
    (decide (query = []) || (containsIgnoreCase U name query ||
        containsIgnoreCase U (Filepath.Ext name) query)) = containsIgnoreCase U name query ∧
    containsIgnoreCase U name [] = true ∧
    (∃ pre, name = pre ++ Filepath.Ext name ∧
      Strings.ToLower U name = Strings.ToLower U pre ++ Strings.ToLower U (Filepath.Ext name)) ∧
    (∀ (path : GoString) (isDir : Bool),
      (searchWalkFn U query path (some ⟨name, isDir⟩) none).1 =
        if isDir = false ∧ containsIgnoreCase U name query = true then [Line.path path]
        else []) := by
  have hempty : ∀ s, containsIgnoreCase U s [] = true := by
    intro s
    simp [containsIgnoreCase, Strings.ToLower_nil, Strings.Contains_nil]
  have hmain : (decide (query = []) || (containsIgnoreCase U name query ||
      containsIgnoreCase U (Filepath.Ext name) query)) = containsIgnoreCase U name query := by
    by_cases hq : query = []
    · subst hq; simp [hempty]
    · cases h1 : containsIgnoreCase U name query with
      | true => simp
      | false =>
        cases h2 : containsIgnoreCase U (Filepath.Ext name) query with
        | false => simp [hq]
        | true => rw [containsIgnoreCase_Ext U name query h2] at h1; cases h1
  refine ⟨hmain, hempty name, ?_, ?_⟩
  · rcases Filepath.Ext_spec name with h0 | ⟨pre, rest, h1, h2⟩
    · exact ⟨name, by simp [h0], by simp [h0, Strings.ToLower_nil]⟩
    · refine ⟨pre, by rw [h1]; exact h2, ?_⟩
      rw [h1]
      conv_lhs => rw [h2]
      exact Strings.ToLower_append_ascii U pre rest 46 (by decide)
  · intro path isDir
    have hm := hmain
    unfold searchWalkFn containsNameOrExtension
    simp only
    rw [hm]
    cases isDir <;> cases containsIgnoreCase U name query <;> simp

/-! ## The interaction loop -/

theorem readUserInput_fst (U : UnicodeTables) (prompt : String) (w : World) :
    (readUserInput U prompt w).1 = Strings.TrimSpace U (w.stdin.headD []) := rfl

theorem readUserInput_snd (U : UnicodeTables) (prompt : String) (w : World) :
    (readUserInput U prompt w).2 = ⟨w.stdin.tail, w.stdout ++ [Line.text prompt], w.fs⟩ := rfl

theorem ParseBool_true (s : GoString) (h : s ∈ trueSpellings) :
    Strconv.ParseBool s = .ok true := by
  simp only [trueSpellings, List.mem_cons, List.mem_singleton, List.not_mem_nil, or_false] at h
  unfold Strconv.ParseBool
  rw [if_pos h]

theorem ParseBool_false (s : GoString) (h : s ∈ falseSpellings) :
    Strconv.ParseBool s = .ok false := by
  have h2 := h
  simp only [falseSpellings, List.mem_cons, List.mem_singleton, List.not_mem_nil, or_false] at h
  unfold Strconv.ParseBool
  rw [if_neg, if_pos h]
  intro ht
  revert h2
  rcases ht with ht | ht | ht | ht | ht | ht <;> subst ht <;> decide

theorem ParseBool_other (s : GoString) (h1 : s ∉ trueSpellings) (h2 : s ∉ falseSpellings) :
    Strconv.ParseBool s = .error .ErrSyntax := by
  simp only [trueSpellings, List.mem_cons, List.mem_singleton, List.not_mem_nil, or_false] at h1
  simp only [falseSpellings, List.mem_cons, List.mem_singleton, List.not_mem_nil, or_false] at h2
  unfold Strconv.ParseBool
  rw [if_neg h1, if_neg h2]

/-- A line that `strconv.ParseBool` refuses costs one unit of fuel, prints the prompt
and the error message and leaves the rest of the input. -/
theorem readBoolInputLoop_reject (U : UnicodeTables) (prompt : String) (w : World) (n : Nat)
    (h1 : Strings.TrimSpace U (w.stdin.headD []) ∉ trueSpellings)
    (h2 : Strings.TrimSpace U (w.stdin.headD []) ∉ falseSpellings) :
    readBoolInputLoop U prompt (n + 1) w =
      readBoolInputLoop U prompt n
        ⟨w.stdin.tail, w.stdout ++ [Line.text prompt] ++ [Line.text invalidBool], w.fs⟩ := by
  rw [readBoolInputLoop]
  simp only [readUserInput_fst, readUserInput_snd, ParseBool_other _ h1 h2, World.print]

/-- C6 as stated fails: the line `tRuE` is the word true in mixed case, and
`readBoolInput` does not return on it: alone it leaves the function waiting for ever,
followed by `true` it is answered with the error message and a second prompt. -/
theorem readBoolInput_refuses_mixed_case :
    Strings.ToLower latin1Tables (Strings.TrimSpace latin1Tables (str "tRuE\n")) = str "true" ∧
    Strconv.ParseBool (Strings.TrimSpace latin1Tables (str "tRuE\n")) = .error .ErrSyntax ∧
    (readBoolInput latin1Tables RECURSIVE_BOOL ⟨[str "tRuE\n"], [], ⟨[], [], []⟩⟩).isNone = true ∧
    (readBoolInput latin1Tables RECURSIVE_BOOL ⟨[str "tRuE\n", str "true\n"], [], ⟨[], [], []⟩⟩).map
        (fun r => (r.1, r.2.stdout)) =
      some (true, [Line.text RECURSIVE_BOOL, Line.text invalidBool, Line.text RECURSIVE_BOOL]) := by
  refine ⟨by decide, rfl, by decide, by decide⟩

/-- C6, amended.  `readBoolInput` accepts the spellings of `strconv.ParseBool` and no
others.  A line whose trimmed text is one of `1 t T true TRUE True` makes it return
true after the one prompt, one of `0 f F false FALSE False` false; every other line
(the words in mixed case such as `tRuE` included) makes it print the error message
and start again with the same prompt on the rest of the input. -/
theorem readBoolInput_spellings (U : UnicodeTables) (prompt : String) (w : World) :
    (Strings.TrimSpace U (w.stdin.headD []) ∈ trueSpellings →
      readBoolInput U prompt w =
        some (true, ⟨w.stdin.tail, w.stdout ++ [Line.text prompt], w.fs⟩)) ∧
    (Strings.TrimSpace U (w.stdin.headD []) ∈ falseSpellings →
      readBoolInput U prompt w =
        some (false, ⟨w.stdin.tail, w.stdout ++ [Line.text prompt], w.fs⟩)) ∧
    (Strings.TrimSpace U (w.stdin.headD []) ∉ trueSpellings →
      Strings.TrimSpace U (w.stdin.headD []) ∉ falseSpellings →
      readBoolInput U prompt w =
        readBoolInput U prompt
          ⟨w.stdin.tail, w.stdout ++ [Line.text prompt] ++ [Line.text invalidBool], w.fs⟩) := by
  refine ⟨?_, ?_, ?_⟩
  · intro h
    simp only [readBoolInput, readBoolInputLoop, readUserInput_fst, readUserInput_snd,
      ParseBool_true _ h]
  · intro h
    simp only [readBoolInput, readBoolInputLoop, readUserInput_fst, readUserInput_snd,
      ParseBool_false _ h]
  · intro h1 h2
    unfold readBoolInput
    rw [readBoolInputLoop_reject U prompt w _ h1 h2]
    cases hs : w.stdin with
    | nil =>
      rw [hs] at h1 h2
      rw [readBoolInputLoop_reject U prompt _ _ h1 h2]
      rfl
    | cons l rest => rfl

/-- C6 amended, at instances: `TRUE` is read as true, `False` as false, and `tRuE`
leads to the prompt again. -/
theorem readBoolInput_spellings_witness :
    readBoolInput latin1Tables RECURSIVE_BOOL ⟨[str " TRUE\n"], [], ⟨[], [], []⟩⟩ =
      some (true, ⟨[], [Line.text RECURSIVE_BOOL], ⟨[], [], []⟩⟩) ∧
    readBoolInput latin1Tables RECURSIVE_BOOL ⟨[str "False\n"], [], ⟨[], [], []⟩⟩ =
      some (false, ⟨[], [Line.text RECURSIVE_BOOL], ⟨[], [], []⟩⟩) ∧
    readBoolInput latin1Tables RECURSIVE_BOOL ⟨[str "tRuE\n", str "f\n"], [], ⟨[], [], []⟩⟩ =
      readBoolInput latin1Tables RECURSIVE_BOOL
        ⟨[str "f\n"], [Line.text RECURSIVE_BOOL, Line.text invalidBool], ⟨[], [], []⟩⟩ :=
  ⟨(readBoolInput_spellings latin1Tables RECURSIVE_BOOL ⟨[str " TRUE\n"], [], ⟨[], [], []⟩⟩).1
      (by decide),
    (readBoolInput_spellings latin1Tables RECURSIVE_BOOL ⟨[str "False\n"], [], ⟨[], [], []⟩⟩).2.1
      (by decide),
    (readBoolInput_spellings latin1Tables RECURSIVE_BOOL
      ⟨[str "tRuE\n", str "f\n"], [], ⟨[], [], []⟩⟩).2.2 (by decide) (by decide)⟩

end FileExplorer

namespace FileExplorer

/-- A result of `readBoolInput` has on standard output what was there, then more. -/
theorem readBoolInputLoop_stdout (U : UnicodeTables) (prompt : String) :
    ∀ (fuel : Nat) (w : World) (b : Bool) (w2 : World),
      readBoolInputLoop U prompt fuel w = some (b, w2) → ∃ l, w2.stdout = w.stdout ++ l := by
  intro fuel
  induction fuel with
  | zero => intro w b w2 h; cases h
  | succ n ih =>
    intro w b w2 h
    rw [readBoolInputLoop] at h
    simp only [readUserInput_fst, readUserInput_snd] at h
    cases hp : Strconv.ParseBool (Strings.TrimSpace U (w.stdin.headD [])) with
    | error e =>
      rw [hp] at h
      obtain ⟨l, hl⟩ := ih _ b w2 h
      exact ⟨[Line.text prompt] ++ [Line.text invalidBool] ++ l, by
        rw [hl]; simp [World.print]⟩
    | ok v =>
      rw [hp] at h
      injection h with h
      injection h with _ h
      subst h
      exact ⟨[Line.text prompt], rfl⟩

theorem report_stdout (w : World) (r : Outcome) : ∃ l, (w.report r).stdout = w.stdout ++ l := by
  unfold World.report World.apply
  cases r.err with
  | none => exact ⟨r.out, rfl⟩
  | some e => exact ⟨r.out ++ logError e, by simp⟩

/-- Every operation of the menu begins by printing the prompt for the source path. -/
theorem operations_begin_with_prompt (U : UnicodeTables) (w w2 : World) :
    (listFilesOperation U w = some w2 ∨ searchFilesOperation U w = some w2 ∨
      copyFileOperation U w = some w2 ∨ moveFileOperation U w = some w2 ∨
      deleteFileOperation U w = some w2) →
    ∃ l, w2.stdout = w.stdout ++ Line.text SOURCE_PATH :: l := by
  intro h
  rcases h with h | h | h | h | h
  · unfold listFilesOperation at h
    simp only [readUserInput_fst, readUserInput_snd] at h
    split at h
    · cases h
    · rename_i b w3 hb
      injection h with h
      subst h
      obtain ⟨l1, h1⟩ := readBoolInputLoop_stdout U _ _ _ b w3 hb
      obtain ⟨l2, h2⟩ := report_stdout w3 (ListFiles.Execute
        ⟨Strings.TrimSpace U (w.stdin.headD []), b⟩ w3.fs)
      exact ⟨l1 ++ l2, by rw [h2, h1]; simp⟩
  · unfold searchFilesOperation at h
    simp only [readUserInput_fst, readUserInput_snd] at h
    split at h
    · cases h
    · rename_i b w3 hb
      injection h with h
      subst h
      obtain ⟨l1, h1⟩ := readBoolInputLoop_stdout U _ _ _ b w3 hb
      obtain ⟨l2, h2⟩ := report_stdout w3 (SearchFiles.Execute U
        ⟨Strings.TrimSpace U (w.stdin.headD []),
          Strings.TrimSpace U (w.stdin.tail.headD []), b⟩ w3.fs)
      exact ⟨Line.text "Enter the search query: " :: (l1 ++ l2), by rw [h2, h1]; simp⟩
  · unfold copyFileOperation at h
    simp only [readUserInput_fst, readUserInput_snd] at h
    split at h
    · cases h
    · rename_i b w3 hb
      injection h with h
      subst h
      obtain ⟨l1, h1⟩ := readBoolInputLoop_stdout U _ _ _ b w3 hb
      obtain ⟨l2, h2⟩ := report_stdout w3 (CopyFile.Execute
        ⟨Strings.TrimSpace U (w.stdin.headD []),
          Strings.TrimSpace U (w.stdin.tail.headD []), b⟩ w3.fs)
      exact ⟨Line.text "Enter the destination path: " :: (l1 ++ l2), by rw [h2, h1]; simp⟩
  · unfold moveFileOperation at h
    simp only [readUserInput_fst, readUserInput_snd] at h
    split at h
    · cases h
    · rename_i b w3 hb
      injection h with h
      subst h
      obtain ⟨l1, h1⟩ := readBoolInputLoop_stdout U _ _ _ b w3 hb
      obtain ⟨l2, h2⟩ := report_stdout w3 (MoveFile.Execute
        ⟨Strings.TrimSpace U (w.stdin.headD []),
          Strings.TrimSpace U (w.stdin.tail.headD []), b⟩ w3.fs)
      exact ⟨Line.text "Enter the destination path: " :: (l1 ++ l2), by rw [h2, h1]; simp⟩
  · unfold deleteFileOperation at h
    simp only [readUserInput_fst, readUserInput_snd] at h
    split at h
    · cases h
    · rename_i b w3 hb
      injection h with h
      subst h
      obtain ⟨l1, h1⟩ := readBoolInputLoop_stdout U _ _ _ b w3 hb
      obtain ⟨l2, h2⟩ := report_stdout w3 (DeleteFile.Execute
        ⟨Strings.TrimSpace U (w.stdin.headD []), b⟩ w3.fs)
      exact ⟨l1 ++ l2, by rw [h2, h1]; simp⟩

/-- The pass of a number from 1 to 6 does not end as a refused selection does. -/
theorem dispatch_ne_refused (U : UnicodeTables) (n : Int) (h1 : 1 ≤ n) (h6 : n ≤ 6)
    (w : World) : dispatch U n w ≠ some (Next.again, w.print invalidOperation) := by
  intro h
  have hcases : n = 1 ∨ n = 2 ∨ n = 3 ∨ n = 4 ∨ n = 5 ∨ n = 6 := by omega
  have hno : ∀ w2, (listFilesOperation U w = some w2 ∨ searchFilesOperation U w = some w2 ∨
      copyFileOperation U w = some w2 ∨ moveFileOperation U w = some w2 ∨
      deleteFileOperation U w = some w2) → w2 ≠ w.print invalidOperation := by
    intro w2 hw heq
    obtain ⟨l, hl⟩ := operations_begin_with_prompt U w w2 hw
    rw [heq] at hl
    simp only [World.print, List.append_cancel_left_eq, List.cons.injEq, Line.text.injEq] at hl
    exact absurd hl.1 (by decide)
  rcases hcases with hn | hn | hn | hn | hn | hn <;> subst hn <;>
    simp only [dispatch] at h <;> norm_num at h
  · exact hno _ (Or.inl h) rfl
  · exact hno _ (Or.inr (Or.inl h)) rfl
  · exact hno _ (Or.inr (Or.inr (Or.inl h))) rfl
  · exact hno _ (Or.inr (Or.inr (Or.inr (Or.inl h)))) rfl
  · exact hno _ (Or.inr (Or.inr (Or.inr (Or.inr h)))) rfl
  · exact absurd h.1 (by decide)

/-- C7.  One pass through the loop of `main`, with `sel` the trimmed line read as
selector and `w1` the world after the menu and the prompt.  The pass runs the `switch`
(an operation for 1 to 5, the exit for 6) if and only if `sel` parses as an integer
from 1 to 6.  For every other line the pass prints the message for a bad selection
and nothing else, runs no operation, leaves the file system as it was, and the menu
comes again.  The pass ends the loop if and only if the selection is 6. -/
theorem menu_selection (U : UnicodeTables) (w : World) (sel : GoString) (w1 : World)
    (hread : readUserInput U "Enter the operation number: " (printMenu w) = (sel, w1)) :
    sel = Strings.TrimSpace U (w.stdin.headD []) ∧
    w1.fs = w.fs ∧
    ((∃ n, Strconv.Atoi sel = .ok n ∧ 1 ≤ n ∧ n ≤ 6) ↔
      mainPass U w ≠ some (Next.again, w1.print invalidOperation)) ∧
    (∀ n, Strconv.Atoi sel = .ok n → 1 ≤ n → n ≤ 6 → mainPass U w = dispatch U n w1) ∧
    (dispatch U 1 w1 = (listFilesOperation U w1).map (fun w2 => (Next.again, w2)) ∧
     dispatch U 2 w1 = (searchFilesOperation U w1).map (fun w2 => (Next.again, w2)) ∧
     dispatch U 3 w1 = (copyFileOperation U w1).map (fun w2 => (Next.again, w2)) ∧
     dispatch U 4 w1 = (moveFileOperation U w1).map (fun w2 => (Next.again, w2)) ∧
     dispatch U 5 w1 = (deleteFileOperation U w1).map (fun w2 => (Next.again, w2)) ∧
     dispatch U 6 w1 = some (Next.done, w1.print "Exiting program...")) ∧
    ((¬ ∃ n, Strconv.Atoi sel = .ok n ∧ 1 ≤ n ∧ n ≤ 6) →
      mainPass U w = some (Next.again, w1.print invalidOperation) ∧
      (w1.print invalidOperation).fs = w.fs ∧
      (w1.print invalidOperation).stdout = w1.stdout ++ [Line.text invalidOperation]) ∧
    (∀ w2, mainPass U w = some (Next.done, w2) ↔
      (Strconv.Atoi sel = .ok 6 ∧ w2 = w1.print "Exiting program...")) := by
  have hsel : sel = (readUserInput U "Enter the operation number: " (printMenu w)).1 := by
    rw [hread]
  have hw1 : w1 = (readUserInput U "Enter the operation number: " (printMenu w)).2 := by
    rw [hread]
  have hpass : mainPass U w =
      (match Strconv.Atoi sel with
        | .error _ => some (Next.again, w1.print invalidOperation)
        | .ok opNum =>
          if opNum < 1 ∨ opNum > 6 then some (Next.again, w1.print invalidOperation)
          else dispatch U opNum w1) := by
    simp only [mainPass, hread]
  have hvalid : ∀ n, Strconv.Atoi sel = .ok n → 1 ≤ n → n ≤ 6 →
      mainPass U w = dispatch U n w1 := by
    intro n hn h1 h6
    rw [hpass, hn]
    simp only
    rw [if_neg (by omega)]
  have hrefused : (¬ ∃ n, Strconv.Atoi sel = .ok n ∧ 1 ≤ n ∧ n ≤ 6) →
      mainPass U w = some (Next.again, w1.print invalidOperation) := by
    intro hno
    rw [hpass]
    cases hn : Strconv.Atoi sel with
    | error e => rfl
    | ok n =>
      simp only
      rw [if_pos]
      by_contra hc
      exact hno ⟨n, hn, by omega, by omega⟩
  refine ⟨?_, ?_, ⟨?_, ?_⟩, hvalid, ⟨rfl, rfl, rfl, rfl, rfl, rfl⟩, ?_, ?_⟩
  · rw [hsel]; rfl
  · rw [hw1]; rfl
  · rintro ⟨n, hn, h1, h6⟩
    rw [hvalid n hn h1 h6]
    exact dispatch_ne_refused U n h1 h6 w1
  · intro hne
    by_contra hno
    exact hne (hrefused hno)
  · intro hno
    exact ⟨hrefused hno, by rw [hw1]; rfl, rfl⟩
  · intro w2
    constructor
    · intro hdone
      by_cases hv : ∃ n, Strconv.Atoi sel = .ok n ∧ 1 ≤ n ∧ n ≤ 6
      · obtain ⟨n, hn, h1, h6⟩ := hv
        rw [hvalid n hn h1 h6] at hdone
        have hcases : n = 1 ∨ n = 2 ∨ n = 3 ∨ n = 4 ∨ n = 5 ∨ n = 6 := by omega
        rcases hcases with h | h | h | h | h | h <;> subst h <;>
          simp only [dispatch] at hdone <;> norm_num at hdone
        · exact absurd hdone.2 (by decide)
        · exact absurd hdone.2 (by decide)
        · exact absurd hdone.2 (by decide)
        · exact absurd hdone.2 (by decide)
        · exact absurd hdone.2 (by decide)
        · exact ⟨hn, hdone.symm⟩
      · rw [hrefused hv] at hdone
        simp at hdone
    · rintro ⟨h6, hw2⟩
      rw [hvalid 6 h6 (by decide) (by decide), hw2]
      rfl

/-- C7, at instances: the line `7` is refused and changes nothing in the file system,
and so are `abc`, the empty line, `0` and `-3`; the line `6` ends the loop. -/
theorem menu_selection_witness :
    mainPass latin1Tables (exampleWorld [str "7\n"]) =
      some (Next.again,
        (readUserInput latin1Tables "Enter the operation number: "
          (printMenu (exampleWorld [str "7\n"]))).2.print invalidOperation) ∧
    (mainPass latin1Tables (exampleWorld [str "abc\n"])).map (fun r => r.1) = some Next.again ∧
    (mainPass latin1Tables (exampleWorld [str "\n"])).map (fun r => r.1) = some Next.again ∧
    (mainPass latin1Tables (exampleWorld [str "0\n"])).map (fun r => r.1) = some Next.again ∧
    (mainPass latin1Tables (exampleWorld [str "-3\n"])).map (fun r => r.1) = some Next.again ∧
    (mainPass latin1Tables (exampleWorld [str " 6 \n"])).map (fun r => r.1) = some Next.done :=
  ⟨((menu_selection latin1Tables (exampleWorld [str "7\n"]) _ _ rfl).2.2.2.2.2.1
      (by
        rintro ⟨n, hn, h1, h6⟩
        have h7 : Strconv.Atoi (str "7") = .ok 7 := rfl
        have : (Except.ok n : Except Error Int) = .ok 7 := hn.symm.trans h7
        injection this with this
        omega)).1,
    by decide, by decide, by decide, by decide, by decide⟩

end FileExplorer
